import Mathlib

/-!
Verification of the dependency scheduler core of plan-agent-cli.

The embedding below follows the TypeScript sources:
  * `src/src/scheduler/DAGraph.ts`      — the `DAGraph` class,
  * the `TaskScheduler` class            — lifecycle sets plus graph wrapper,
  * `src/src/core/AgentOrchestrator.ts` — the retry/repair loop,
  * `src/src/agents/RunAgent/RunAgent.ts` — executor-level exception handling,
  * the `TaskQueue` class               — bounded-concurrency priority queue.

JavaScript `Map`s are modelled as insertion-ordered association lists
(`Map.set` updates in place or appends; `Map.delete` removes the entry),
`Set`s as insertion-ordered duplicate-free lists, thrown exceptions as
`Except String`, and the numeric in-degree values as `Int`.
-/

namespace PlanAgent

/-! ## Association-list model of JavaScript Map -/

/-- `Map.set k v`: update the entry in place if the key is present,
otherwise append a fresh entry at the end. -/
def mapSet {β : Type} (m : List (String × β)) (k : String) (v : β) :
    List (String × β) :=
  match m with
  | [] => [(k, v)]
  | (k', v') :: rest =>
      if k' = k then (k, v) :: rest else (k', v') :: mapSet rest k v

/-- `Map.delete k`: drop the entry for `k` (all of them; constructed maps
have duplicate-free keys, so at most one exists). -/
def mapDelete {β : Type} (m : List (String × β)) (k : String) :
    List (String × β) :=
  m.filter (fun p => ¬ p.1 = k)

/-- `Map.get k` (as an `Option`). -/
def mapGet {β : Type} (m : List (String × β)) (k : String) : Option β :=
  match m with
  | [] => none
  | (k', v') :: rest => if k' = k then some v' else mapGet rest k

/-- `Map.has k`. -/
def hasKey {β : Type} (m : List (String × β)) (k : String) : Bool :=
  (mapGet m k).isSome

theorem mapGet_mapSet_self {β : Type} (m : List (String × β)) (k : String)
    (v : β) : mapGet (mapSet m k v) k = some v := by
  induction m with
  | nil => simp [mapSet, mapGet]
  | cons p rest ih =>
      obtain ⟨k', v'⟩ := p
      by_cases h : k' = k
      · simp [mapSet, mapGet, h]
      · simp [mapSet, mapGet, h, ih]

theorem mapGet_mapSet_ne {β : Type} (m : List (String × β)) (k k' : String)
    (v : β) (h : k' ≠ k) : mapGet (mapSet m k v) k' = mapGet m k' := by
  have h' : ¬ k = k' := fun hh => h hh.symm
  induction m with
  | nil => simp [mapSet, mapGet, h']
  | cons p rest ih =>
      obtain ⟨k₀, v₀⟩ := p
      by_cases h₀ : k₀ = k
      · subst h₀
        simp [mapSet, mapGet, h']
      · by_cases h₁ : k₀ = k'
        · simp [mapSet, mapGet, h₀, h₁, h]
        · simp [mapSet, mapGet, h₀, h₁, ih]

theorem mapGet_mapDelete_self {β : Type} (m : List (String × β)) (k : String) :
    mapGet (mapDelete m k) k = none := by
  induction m with
  | nil => simp [mapDelete, mapGet]
  | cons p rest ih =>
      obtain ⟨k₀, v₀⟩ := p
      by_cases h : k₀ = k
      · simpa [mapDelete, List.filter_cons, mapGet, h] using ih
      · simpa [mapDelete, List.filter_cons, mapGet, h] using ih

theorem mapGet_mapDelete_ne {β : Type} (m : List (String × β)) (k k' : String)
    (h : k' ≠ k) : mapGet (mapDelete m k) k' = mapGet m k' := by
  have h' : ¬ k = k' := fun hh => h hh.symm
  induction m with
  | nil => simp [mapDelete, mapGet]
  | cons p rest ih =>
      obtain ⟨k₀, v₀⟩ := p
      by_cases h₀ : k₀ = k
      · subst h₀
        simpa [mapDelete, List.filter_cons, mapGet, h'] using ih
      · by_cases h₁ : k₀ = k'
        · simp [mapDelete, List.filter_cons, mapGet, h₀, h₁, h]
        · simpa [mapDelete, List.filter_cons, mapGet, h₀, h₁] using ih

theorem keys_mapSet_of_hasKey {β : Type} (m : List (String × β)) (k : String)
    (v : β) (h : hasKey m k = true) :
    (mapSet m k v).map Prod.fst = m.map Prod.fst := by
  induction m with
  | nil => simp [hasKey, mapGet] at h
  | cons p rest ih =>
      obtain ⟨k₀, v₀⟩ := p
      by_cases h₀ : k₀ = k
      · simp [mapSet, h₀]
      · simp only [hasKey, mapGet, h₀, if_neg h₀] at h
        simp [mapSet, h₀, ih h]

theorem mapGet_eq_none_of_not_hasKey {β : Type} (m : List (String × β))
    (k : String) (h : hasKey m k = false) : mapGet m k = none := by
  cases hm : mapGet m k with
  | none => rfl
  | some v => simp [hasKey, hm] at h

theorem hasKey_mapSet_self {β : Type} (m : List (String × β)) (k : String)
    (v : β) : hasKey (mapSet m k v) k = true := by
  simp [hasKey, mapGet_mapSet_self]

theorem mem_keys_of_mapGet_eq_some {β : Type} {m : List (String × β)}
    {k : String} {v : β} (h : mapGet m k = some v) : k ∈ m.map Prod.fst := by
  induction m with
  | nil => simp [mapGet] at h
  | cons p rest ih =>
      obtain ⟨k₀, v₀⟩ := p
      by_cases h₀ : k₀ = k
      · simp [h₀]
      · simp only [mapGet, if_neg h₀] at h
        simpa using Or.inr (ih h)

theorem mapGet_isSome_of_mem_keys {β : Type} {m : List (String × β)}
    {k : String} (h : k ∈ m.map Prod.fst) : (mapGet m k).isSome = true := by
  induction m with
  | nil => simp at h
  | cons p rest ih =>
      obtain ⟨k₀, v₀⟩ := p
      by_cases h₀ : k₀ = k
      · simp [mapGet, h₀]
      · simp only [List.map_cons, List.mem_cons] at h
        rcases h with h | h
        · exact absurd h.symm h₀
        · simpa [mapGet, h₀] using ih h

theorem mem_of_mapGet_eq_some {β : Type} {m : List (String × β)} {k : String}
    {v : β} (h : mapGet m k = some v) : (k, v) ∈ m := by
  induction m with
  | nil => simp [mapGet] at h
  | cons p rest ih =>
      obtain ⟨k₀, v₀⟩ := p
      by_cases h₀ : k₀ = k
      · subst h₀
        have hv : v₀ = v := by simpa [mapGet] using h
        simp [hv]
      · simp only [mapGet, if_neg h₀] at h
        exact List.mem_cons_of_mem _ (ih h)

theorem mapGet_eq_some_of_mem {β : Type} {m : List (String × β)} {k : String}
    {v : β} (hnd : (m.map Prod.fst).Nodup) (h : (k, v) ∈ m) :
    mapGet m k = some v := by
  induction m with
  | nil => simp at h
  | cons p rest ih =>
      obtain ⟨k₀, v₀⟩ := p
      simp only [List.map_cons, List.nodup_cons] at hnd
      rcases List.mem_cons.mp h with h | h
      · rw [Prod.mk.injEq] at h
        simp [mapGet, h.1.symm, h.2]
      · have hk : ¬ k₀ = k := by
          intro hh
          exact hnd.1 (hh ▸ (List.mem_map.mpr ⟨(k, v), h, rfl⟩))
        simp [mapGet, hk, ih hnd.2 h]

/-! ## The DAGraph class (src/src/scheduler/DAGraph.ts)

A node of `DAGraph<T>` carries `id`, `data` and `dependencies`; the graph
algorithms only read `id` and `dependencies`, so the node map stores the
dependency list (the `data` payload lives in the scheduler's `taskMap`). -/

structure DAGraph where
  nodes : List (String × List String)
  adjacencyList : List (String × List String)
  inDegree : List (String × Int)
deriving DecidableEq, Repr

/-- `reset()` / the freshly constructed graph. -/
def DAGraph.empty : DAGraph := ⟨[], [], []⟩

/-- `addNode(node)`: throws if the id already exists, otherwise registers
the node with an empty adjacency set and in-degree 0. -/
def DAGraph.addNode (g : DAGraph) (id : String) (deps : List String) :
    Except String DAGraph :=
  if hasKey g.nodes id then .error "Node already exists"
  else .ok { nodes := g.nodes ++ [(id, deps)],
             adjacencyList := g.adjacencyList ++ [(id, [])],
             inDegree := g.inDegree ++ [(id, 0)] }

/-- `addEdge(from, to)`: throws if either endpoint is missing; otherwise a
no-op when the edge already exists, else inserts `to` into `from`'s
adjacency set and increments `to`'s in-degree. -/
def DAGraph.addEdge (g : DAGraph) (src dst : String) : Except String DAGraph :=
  if ¬ hasKey g.nodes src then .error "Source node does not exist"
  else if ¬ hasKey g.nodes dst then .error "Target node does not exist"
  else
    match mapGet g.adjacencyList src with
    | none => .ok g
    | some adjacency =>
        if dst ∈ adjacency then .ok g
        else .ok { g with
          adjacencyList := mapSet g.adjacencyList src (adjacency ++ [dst]),
          inDegree := mapSet g.inDegree dst
            ((mapGet g.inDegree dst).getD 0 + 1) }

/-- `buildFromDependencies()`: for every node, add an edge from each of its
declared dependencies that is present in the graph. -/
def DAGraph.buildFromDependencies (g : DAGraph) : Except String DAGraph :=
  g.nodes.foldlM
    (fun acc p =>
      p.2.foldlM
        (fun acc2 depId =>
          if hasKey acc2.nodes depId then acc2.addEdge depId p.1
          else .ok acc2)
        acc)
    g

/-- The successor set of a node (empty when absent, as in the source's
`this.adjacencyList.get(nodeId) || new Set()`). -/
def adjTargets (g : DAGraph) (u : String) : List String :=
  (mapGet g.adjacencyList u).getD []

/-- Membership of a directed edge. -/
def DAGraph.hasEdge (g : DAGraph) (a b : String) : Bool :=
  b ∈ adjTargets g a

/-- `getAllEdges()`. -/
def DAGraph.getAllEdges (g : DAGraph) : List (String × String) :=
  g.adjacencyList.flatMap (fun p => p.2.map (fun t => (p.1, t)))

/-- `getZeroInDegreeNodes()`. -/
def DAGraph.getZeroInDegreeNodes (g : DAGraph) : List String :=
  (g.inDegree.filter (fun p => p.2 = 0)).map Prod.fst

/-- `removeNode(nodeId)`: decrement the in-degree of the (still positive)
successors, detach the node from every adjacency set, then delete its
entries. No-op when the node is absent. -/
def DAGraph.removeNode (g : DAGraph) (nodeId : String) : DAGraph :=
  if ¬ hasKey g.nodes nodeId then g
  else
    let successors := adjTargets g nodeId
    let inDeg1 := successors.foldl
      (fun (m : List (String × Int)) succ =>
        match mapGet m succ with
        | some d => if d > 0 then mapSet m succ (d - 1) else m
        | none => m)
      g.inDegree
    let adj1 := g.adjacencyList.map (fun p => (p.1, p.2.filter (· ≠ nodeId)))
    { nodes := mapDelete g.nodes nodeId,
      adjacencyList := mapDelete adj1 nodeId,
      inDegree := mapDelete inDeg1 nodeId }

/-- Node ids, in insertion order. -/
def nodeIds (g : DAGraph) : List String := g.nodes.map Prod.fst

/-! ## Task lifecycle and the TaskScheduler class

`Task` keeps the fields the scheduler control flow reads (`id`, `status`,
`dependencies`); descriptive metadata (description, steps, priority,
timestamps) never influences scheduling decisions and is not modelled.
Status updates that also touch `updatedAt` are modelled as the status
update alone. -/

inductive TaskStatus where
  | pending
  | executing
  | completed
  | failed
  | retrying
  | cancelled
deriving DecidableEq, Repr

structure Task where
  id : String
  dependencies : List String
  status : TaskStatus
deriving DecidableEq, Repr

structure TaskScheduler where
  graph : DAGraph
  completedTasks : List String
  failedTasks : List String
  taskMap : List (String × Task)
deriving DecidableEq, Repr

/-- The freshly constructed scheduler. -/
def TaskScheduler.empty : TaskScheduler := ⟨DAGraph.empty, [], [], []⟩

/-- `Set.add`: append when not already present. -/
def setAdd (s : List String) (x : String) : List String :=
  if x ∈ s then s else s ++ [x]

/-- `addTask(node)`: `graph.addNode` (which may throw), then record the
payload in `taskMap`. -/
def TaskScheduler.addTask (s : TaskScheduler) (id : String)
    (deps : List String) (data : Task) : Except String TaskScheduler := do
  let g ← s.graph.addNode id deps
  .ok { s with graph := g, taskMap := mapSet s.taskMap id data }

/-- `addTasksFromArray(tasks)`: one `addTask` per task, with the node id,
the dependency list and the payload all taken from the task itself. -/
def TaskScheduler.addTasksFromArray (s : TaskScheduler) (tasks : List Task) :
    Except String TaskScheduler :=
  tasks.foldlM (fun acc t => acc.addTask t.id t.dependencies t) s

/-- `buildGraph()`. -/
def TaskScheduler.buildGraph (s : TaskScheduler) : Except String TaskScheduler := do
  let g ← s.graph.buildFromDependencies
  .ok { s with graph := g }

/-- `getNextExecutableTasks()`: tasks whose node has in-degree zero, that
are in neither `completedTasks` nor `failedTasks`, and whose recorded
status is `PENDING`. -/
def TaskScheduler.getNextExecutableTasks (s : TaskScheduler) : List Task :=
  s.graph.getZeroInDegreeNodes.filterMap
    (fun nodeId =>
      if nodeId ∈ s.completedTasks ∨ nodeId ∈ s.failedTasks then none
      else
        match mapGet s.taskMap nodeId with
        | some task => if task.status = TaskStatus.pending then some task else none
        | none => none)

/-- `markCompleted(taskId)`: add to `completedTasks`, set the stored
status to `COMPLETED`, and remove the node from the graph. -/
def TaskScheduler.markCompleted (s : TaskScheduler) (taskId : String) :
    TaskScheduler :=
  let taskMap :=
    match mapGet s.taskMap taskId with
    | some task => mapSet s.taskMap taskId { task with status := TaskStatus.completed }
    | none => s.taskMap
  { s with completedTasks := setAdd s.completedTasks taskId,
           taskMap := taskMap,
           graph := s.graph.removeNode taskId }

/-- `markFailed(taskId)`: add to `failedTasks` and set status `FAILED`;
the node stays in the graph. -/
def TaskScheduler.markFailed (s : TaskScheduler) (taskId : String) :
    TaskScheduler :=
  let taskMap :=
    match mapGet s.taskMap taskId with
    | some task => mapSet s.taskMap taskId { task with status := TaskStatus.failed }
    | none => s.taskMap
  { s with failedTasks := setAdd s.failedTasks taskId, taskMap := taskMap }

/-- `markExecuting(taskId)`. -/
def TaskScheduler.markExecuting (s : TaskScheduler) (taskId : String) :
    TaskScheduler :=
  let taskMap :=
    match mapGet s.taskMap taskId with
    | some task => mapSet s.taskMap taskId { task with status := TaskStatus.executing }
    | none => s.taskMap
  { s with taskMap := taskMap }

/-- `markRetrying(taskId)`: delete from `failedTasks` and set status
`RETRYING`. -/
def TaskScheduler.markRetrying (s : TaskScheduler) (taskId : String) :
    TaskScheduler :=
  let taskMap :=
    match mapGet s.taskMap taskId with
    | some task => mapSet s.taskMap taskId { task with status := TaskStatus.retrying }
    | none => s.taskMap
  { s with failedTasks := s.failedTasks.filter (· ≠ taskId), taskMap := taskMap }

/-- `getTaskStatus(taskId)`. -/
def TaskScheduler.getTaskStatus (s : TaskScheduler) (taskId : String) :
    Option TaskStatus :=
  (mapGet s.taskMap taskId).map Task.status

/-! ## Cycle detection (hasCycle / findCycleNodes)

The source's recursive `dfs` closures mutate a shared `visited` set and a
`recursionStack` set (plus, for `findCycleNodes`, a `path` array that
always holds exactly the members of the recursion stack, in push order).
They are embedded as fuel-indexed functions threading `visited`; the
per-neighbor loop with its early `return true` becomes `dfsFold`, which
stops descending once a cycle is found.  The fuel only bounds the nesting
depth of `dfs` calls (each one visits an unvisited node), so any fuel
larger than the number of node and successor ids is enough; exhausted
fuel returns `false` untouched. -/

def dfsFold (next : String → List String → List String → Bool × List String) :
    List String → List String → List String → Bool × List String
  | [], visited, _ => (false, visited)
  | v :: rest, visited, stack =>
      if v ∈ visited then
        if v ∈ stack then (true, visited)
        else dfsFold next rest visited stack
      else
        let r := next v visited stack
        if r.1 then r else dfsFold next rest r.2 stack

def dfsNode (g : DAGraph) : Nat → String → List String → List String →
    Bool × List String
  | 0, _, visited, _ => (false, visited)
  | fuel + 1, u, visited, stack =>
      dfsFold (dfsNode g fuel) (adjTargets g u) (u :: visited) (u :: stack)

/-- Every id the DFS can ever visit. -/
def dfsUniverse (g : DAGraph) : List String :=
  nodeIds g ++ g.adjacencyList.flatMap Prod.snd

/-- Fuel that can never run out: one more than the universe size. -/
def dfsFuel (g : DAGraph) : Nat := (dfsUniverse g).length + 1

/-- The outer `for (nodeId of this.nodes.keys())` loop of `hasCycle()`. -/
def hasCycleAux (g : DAGraph) : List String → List String → Bool
  | [], _ => false
  | u :: rest, visited =>
      if u ∈ visited then hasCycleAux g rest visited
      else
        let r := dfsNode g (dfsFuel g) u visited []
        if r.1 then true else hasCycleAux g rest r.2

/-- `hasCycle()`. -/
def DAGraph.hasCycle (g : DAGraph) : Bool := hasCycleAux g (nodeIds g) []

/-- `findCycleNodes()`'s `dfs`, which also carries the `path` array and,
on success, returns `path.slice(path.indexOf(neighbor))`. -/
def findDfsFold
    (next : String → List String → List String → List String →
      Bool × List String × List String) :
    List String → List String → List String → List String →
      Bool × List String × List String
  | [], visited, _, _ => (false, visited, [])
  | v :: rest, visited, stack, path =>
      if v ∈ visited then
        if v ∈ stack then (true, visited, path.drop (path.indexOf v))
        else findDfsFold next rest visited stack path
      else
        let r := next v visited stack path
        if r.1 then r else findDfsFold next rest r.2.1 stack path

def findDfsNode (g : DAGraph) : Nat → String → List String → List String →
    List String → Bool × List String × List String
  | 0, _, visited, _, _ => (false, visited, [])
  | fuel + 1, u, visited, stack, path =>
      findDfsFold (findDfsNode g fuel) (adjTargets g u) (u :: visited)
        (u :: stack) (path ++ [u])

/-- The outer loop of `findCycleNodes()` (it breaks at the first cycle). -/
def findCycleAux (g : DAGraph) : List String → List String → List String
  | [], _ => []
  | u :: rest, visited =>
      if u ∈ visited then findCycleAux g rest visited
      else
        let r := findDfsNode g (dfsFuel g) u visited [] []
        if r.1 then r.2.2 else findCycleAux g rest r.2.1

/-- `[...new Set (arr)]`: first occurrences, in order. -/
def dedupFirst : List String → List String
  | [] => []
  | x :: xs => x :: (dedupFirst xs).filter (· ≠ x)

/-- `findCycleNodes()`. -/
def DAGraph.findCycleNodes (g : DAGraph) : List String :=
  dedupFirst (findCycleAux g (nodeIds g) [])

/-! ## Topological sort (Kahn's algorithm, by layers)

The `while (inDegreeClone.size > 0)` loop removes at least one key per
iteration (a nonempty zero-degree layer; an empty layer throws), so a
fuel of one more than the map size never runs out. -/

/-- The per-layer-node update: delete the node's key, then decrement the
in-degree of each of its successors that is still present. -/
def kahnRemove (g : DAGraph) (m : List (String × Int)) (nodeId : String) :
    List (String × Int) :=
  (adjTargets g nodeId).foldl
    (fun acc succ =>
      match mapGet acc succ with
      | some d => mapSet acc succ (d - 1)
      | none => acc)
    (mapDelete m nodeId)

def kahnLoop (g : DAGraph) : Nat → List (String × Int) →
    Except String (List (List String))
  | 0, m =>
      if m.isEmpty then .ok []
      else .error "fuel exhausted"
  | fuel + 1, m =>
      if m.isEmpty then .ok []
      else
        let currentLayer := (m.filter (fun p => p.2 = 0)).map Prod.fst
        if currentLayer.isEmpty then
          .error "Unexpected state: no nodes with zero in-degree"
        else
          let m1 := currentLayer.foldl (kahnRemove g) m
          match kahnLoop g fuel m1 with
          | .ok layers => .ok (currentLayer :: layers)
          | .error e => .error e

/-- `topologicalSort()`: throws on a cyclic graph, otherwise runs Kahn's
algorithm on a copy of the in-degree map. -/
def DAGraph.topologicalSort (g : DAGraph) :
    Except String (List (List String)) :=
  if g.hasCycle then
    .error "Cannot perform topological sort on a graph with cycles"
  else kahnLoop g (g.inDegree.length + 1) g.inDegree

/-! ## Execution plan (TaskScheduler.getExecutionPlan) -/

/-- `ScheduleResult<Task>`; `cycleNodes` is optional in the source and is
only populated on the cycle branch. -/
structure ScheduleResult where
  executionOrder : List (List String)
  hasCycle : Bool
  cycleNodes : Option (List String)
  nodeMap : List (String × Task)
deriving DecidableEq, Repr

/-- `getExecutionPlan()`: report a cycle as data (empty order plus the
cycle nodes) instead of letting `topologicalSort()` throw. -/
def TaskScheduler.getExecutionPlan (s : TaskScheduler) :
    Except String ScheduleResult :=
  if s.graph.hasCycle then
    .ok { executionOrder := [], hasCycle := true,
          cycleNodes := some s.graph.findCycleNodes, nodeMap := s.taskMap }
  else
    match s.graph.topologicalSort with
    | .ok executionOrder =>
        .ok { executionOrder := executionOrder, hasCycle := false,
              cycleNodes := none, nodeMap := s.taskMap }
    | .error e => .error e

/-! ## Small facts used by the claim proofs -/

theorem mem_mapSet {β : Type} {m : List (String × β)} {k : String} {v : β}
    {p : String × β} (h : p ∈ mapSet m k v) : p = (k, v) ∨ p ∈ m := by
  induction m with
  | nil => simpa [mapSet] using h
  | cons q rest ih =>
      obtain ⟨k₀, v₀⟩ := q
      by_cases h₀ : k₀ = k
      · rcases List.mem_cons.mp (by simpa [mapSet, h₀] using h) with h | h
        · exact Or.inl h
        · exact Or.inr (List.mem_cons_of_mem _ h)
      · rcases List.mem_cons.mp (by simpa [mapSet, h₀] using h) with h | h
        · exact Or.inr (by simp [h])
        · rcases ih h with h | h
          · exact Or.inl h
          · exact Or.inr (List.mem_cons_of_mem _ h)

/-- The per-task filter of `getNextExecutableTasks`, unfolded: a returned
task comes from a zero-in-degree node id that is neither completed nor
failed, is the stored task of that id, and its status is `PENDING`. -/
theorem mem_getNextExecutableTasks {s : TaskScheduler} {tk : Task}
    (h : tk ∈ s.getNextExecutableTasks) :
    ∃ nodeId, nodeId ∈ s.graph.getZeroInDegreeNodes ∧
      nodeId ∉ s.completedTasks ∧ nodeId ∉ s.failedTasks ∧
      mapGet s.taskMap nodeId = some tk ∧ tk.status = TaskStatus.pending := by
  unfold TaskScheduler.getNextExecutableTasks at h
  rcases List.mem_filterMap.mp h with ⟨nodeId, hmem, hf⟩
  by_cases hcf : nodeId ∈ s.completedTasks ∨ nodeId ∈ s.failedTasks
  · simp [hcf] at hf
  · refine ⟨nodeId, hmem, ?_, ?_, ?_⟩
    · exact fun hc => hcf (Or.inl hc)
    · exact fun hc => hcf (Or.inr hc)
    · simp only [hcf, if_false] at hf
      cases hg : mapGet s.taskMap nodeId with
      | none => simp [hg] at hf
      | some task =>
          simp only [hg] at hf
          by_cases hst : task.status = TaskStatus.pending
          · rw [if_pos hst] at hf
            injection hf with hf
            refine ⟨?_, ?_⟩
            · exact congrArg some hf
            · rw [← hf]
              exact hst
          · simp [hst] at hf

/-! ## Claims about addEdge (C1, C8) -/

/-- A one-node graph, as produced by `addNode("a")` on the empty graph. -/
def selfLoopSetup : DAGraph := ⟨[("a", [])], [("a", [])], [("a", 0)]⟩

/-- C1 counterexample: on the graph holding the single node `a`,
`addEdge("a","a")` does not throw (the source has no self-edge check); it
returns successfully and the resulting graph has the self-loop `(a,a)`
with `a`'s in-degree bumped to 1. -/
theorem addEdge_self_accepted_counterexample :
    selfLoopSetup.addEdge "a" "a" =
      .ok ⟨[("a", [])], [("a", ["a"])], [("a", 1)]⟩ ∧
    ((selfLoopSetup.addEdge "a" "a").map
      (fun g => g.hasEdge "a" "a")) = .ok true := by
  constructor
  · rfl
  · rfl

/-- C1 (amended): for any node `a` present in the graph (with its
adjacency entry, as every constructed graph has), `addEdge(a, a)` does
not fail: it succeeds and the resulting graph contains the self-loop
`(a,a)`. -/
theorem addEdge_self_creates_loop (g : DAGraph) (a : String)
    (ts : List String) (hn : hasKey g.nodes a = true)
    (ha : mapGet g.adjacencyList a = some ts) :
    ∃ g', g.addEdge a a = .ok g' ∧ g'.hasEdge a a = true := by
  unfold DAGraph.addEdge
  rw [ha]
  by_cases hmem : a ∈ ts
  · exact ⟨g, by simp [hn, hmem], by simp [DAGraph.hasEdge, adjTargets, ha, hmem]⟩
  · refine ⟨{ g with
        adjacencyList := mapSet g.adjacencyList a (ts ++ [a]),
        inDegree := mapSet g.inDegree a ((mapGet g.inDegree a).getD 0 + 1) },
      by simp [hn, hmem], ?_⟩
    simp [DAGraph.hasEdge, adjTargets, mapGet_mapSet_self]

/-- C1 witness: the amended statement evaluated on the one-node graph. -/
theorem addEdge_self_creates_loop_witness :
    hasKey selfLoopSetup.nodes "a" = true ∧
    mapGet selfLoopSetup.adjacencyList "a" = some [] ∧
    ∃ g', selfLoopSetup.addEdge "a" "a" = .ok g' ∧
      g'.hasEdge "a" "a" = true :=
  ⟨by decide, by decide,
    addEdge_self_creates_loop selfLoopSetup "a" [] (by decide) (by decide)⟩

/-- C8: `addEdge` is idempotent — if the first call succeeded with result
graph `g₁`, repeating the same call on `g₁` returns `g₁` itself, so every
adjacency set and every in-degree is identical to the one-call state. -/
theorem addEdge_idempotent (g : DAGraph) (src dst : String) (g₁ : DAGraph)
    (h : g.addEdge src dst = .ok g₁) : g₁.addEdge src dst = .ok g₁ := by
  unfold DAGraph.addEdge at h ⊢
  by_cases h1 : hasKey g.nodes src
  · by_cases h2 : hasKey g.nodes dst
    · simp only [h1, h2, not_true, if_false, ite_false, Bool.not_eq_true] at h
      cases ha : mapGet g.adjacencyList src with
      | none =>
          rw [ha] at h
          have hg : g₁ = g := Eq.symm (by simpa using h)
          subst hg
          simp only [h1, h2, not_true, if_false, ite_false]
          rw [ha]
      | some adjacency =>
          rw [ha] at h
          by_cases hmem : dst ∈ adjacency
          · have hg : g₁ = g := Eq.symm (by simpa [hmem] using h)
            subst hg
            simp only [h1, h2, not_true, if_false, ite_false]
            rw [ha]
            simp [hmem]
          · have hg : g₁ = { g with
                adjacencyList := mapSet g.adjacencyList src (adjacency ++ [dst]),
                inDegree := mapSet g.inDegree dst
                  ((mapGet g.inDegree dst).getD 0 + 1) } := by
              simpa [hmem] using h.symm
            subst hg
            simp only [h1, h2, not_true, if_false, ite_false]
            rw [mapGet_mapSet_self]
            simp
    · simp [h1, h2] at h
  · simp [h1] at h

/-- A two-node graph `a`, `b` with no edges yet. -/
def twoNodeSetup : DAGraph :=
  ⟨[("a", []), ("b", [])], [("a", []), ("b", [])], [("a", 0), ("b", 0)]⟩

/-- C8 witness: adding the edge `(a,b)` twice on the two-node graph gives
exactly the one-call result. -/
theorem addEdge_idempotent_witness :
    twoNodeSetup.addEdge "a" "b" =
      .ok ⟨[("a", []), ("b", [])], [("a", ["b"]), ("b", [])],
        [("a", 0), ("b", 1)]⟩ ∧
    DAGraph.addEdge
      ⟨[("a", []), ("b", [])], [("a", ["b"]), ("b", [])],
        [("a", 0), ("b", 1)]⟩ "a" "b" =
      .ok ⟨[("a", []), ("b", [])], [("a", ["b"]), ("b", [])],
        [("a", 0), ("b", 1)]⟩ :=
  ⟨by rfl, addEdge_idempotent twoNodeSetup "a" "b" _ (by rfl)⟩

/-! ## Claim about markRetrying (C2) -/

/-- The scheduler holding the single pending task `t` (no dependencies)
after `markFailed("t")`: `t` is in `failedTasks` with status `FAILED`. -/
def retryingSetup : TaskScheduler :=
  match TaskScheduler.empty.addTask "t" [] ⟨"t", [], TaskStatus.pending⟩ with
  | .ok s => s.markFailed "t"
  | .error _ => TaskScheduler.empty

/-- C2 counterexample: in `retryingSetup` the task `t` is present with
in-degree zero; `markRetrying("t")` removes it from `failedTasks` and
sets status `RETRYING`, but a subsequent `getNextExecutableTasks()`
returns nothing — the claim's "t is returned" part fails, because the
ready filter only accepts status `PENDING`. -/
theorem markRetrying_counterexample :
    hasKey (retryingSetup.markRetrying "t").graph.nodes "t" = true ∧
    mapGet (retryingSetup.markRetrying "t").graph.inDegree "t" = some 0 ∧
    (retryingSetup.markRetrying "t").failedTasks = [] ∧
    (retryingSetup.markRetrying "t").getTaskStatus "t" =
      some TaskStatus.retrying ∧
    (retryingSetup.markRetrying "t").getNextExecutableTasks = [] := by
  refine ⟨by decide, by decide, by decide, by decide, by decide⟩

/-- C2 (amended): `markRetrying(t)` removes `t` from `failedTasks` and
sets its state to `Retrying`, but `t` is **not** returned by a subsequent
`getNextExecutableTasks()` (whatever its in-degree): the ready filter
requires status `PENDING`, so the task only becomes eligible again once
its status is reset to `PENDING`. -/
theorem markRetrying_not_picked_up (s : TaskScheduler) (t : String)
    (task : Task) (ht : mapGet s.taskMap t = some task)
    (hid : ∀ p ∈ s.taskMap, (p.2 : Task).id = p.1) :
    t ∉ (s.markRetrying t).failedTasks ∧
    (s.markRetrying t).getTaskStatus t = some TaskStatus.retrying ∧
    ∀ tk ∈ (s.markRetrying t).getNextExecutableTasks, tk.id ≠ t := by
  have htid : task.id = t := hid (t, task) (mem_of_mapGet_eq_some ht)
  have hmap : (s.markRetrying t).taskMap =
      mapSet s.taskMap t { task with status := TaskStatus.retrying } := by
    simp [TaskScheduler.markRetrying, ht]
  refine ⟨?_, ?_, ?_⟩
  · intro hmem
    have := List.of_mem_filter (l := s.failedTasks) hmem
    simp at this
  · simp [TaskScheduler.getTaskStatus, hmap, mapGet_mapSet_self]
  · intro tk hmem hid'
    obtain ⟨nodeId, _, _, _, hget, hst⟩ := mem_getNextExecutableTasks hmem
    have hids : ∀ p ∈ (s.markRetrying t).taskMap, (p.2 : Task).id = p.1 := by
      intro p hp
      rw [hmap] at hp
      rcases mem_mapSet hp with h | h
      · subst h
        exact htid
      · exact hid p h
    have hnid : tk.id = nodeId := hids (nodeId, tk) (mem_of_mapGet_eq_some hget)
    have hnt : nodeId = t := by rw [← hnid, hid']
    rw [hnt, hmap, mapGet_mapSet_self] at hget
    injection hget with hget
    rw [← hget] at hst
    simp at hst

/-- C2 witness: the amended statement evaluated on `retryingSetup`. -/
theorem markRetrying_not_picked_up_witness :
    mapGet retryingSetup.taskMap "t" =
      some ⟨"t", [], TaskStatus.failed⟩ ∧
    "t" ∉ (retryingSetup.markRetrying "t").failedTasks ∧
    (retryingSetup.markRetrying "t").getTaskStatus "t" =
      some TaskStatus.retrying ∧
    ∀ tk ∈ (retryingSetup.markRetrying "t").getNextExecutableTasks,
      tk.id ≠ "t" := by
  refine ⟨by decide, ?_⟩
  have h := markRetrying_not_picked_up retryingSetup "t"
    ⟨"t", [], TaskStatus.failed⟩ (by decide) (by decide)
  exact h

/-! ## The orchestrator retry/repair loop (C6) and the executor catch (C7)

`AgentOrchestrator.executeTaskWithRetry` drives, per task, the loop
`execute → validate → (complete | repair → retry | break)`.  The three
awaited collaborators (RunAgent executor, QualityAgent validator,
repairer) are modelled as oracles indexed by the attempt counter, which
makes the asynchronous call sequence explicit.  The `while (retryCount <=
maxRetries)` loop is embedded with the remaining iteration count
`maxRetries + 1 - retryCount` as the structural argument, keeping
`retryCount` in sync for the oracles. -/

structure ExecutionResult where
  taskId : String
  success : Bool
  output : Option String
  error : Option String
deriving DecidableEq, Repr

structure Collaborators where
  executeTask : Nat → Task → ExecutionResult
  validate : Nat → Task → ExecutionResult → Bool
  repair : Nat → Task → ExecutionResult → Option Task

/-- Outcome of `executeTaskWithRetry`: the returned result, the scheduler
after the final mark, and how many executor invocations happened. -/
structure RetryOutcome where
  result : ExecutionResult
  scheduler : TaskScheduler
  execCalls : Nat
deriving Repr

/-- The code after the loop: `markFailed`, then return the last result or
the synthetic max-retries result. -/
def finishFailed (s : TaskScheduler) (taskId : String)
    (lastResult : Option ExecutionResult) (calls : Nat) : RetryOutcome :=
  { result := lastResult.getD
      { taskId := taskId, success := false, output := none,
        error := some "Max retries exceeded" },
    scheduler := s.markFailed taskId,
    execCalls := calls }

def executeTaskWithRetryAux (c : Collaborators) (taskId : String) :
    Nat → Task → Nat → Option ExecutionResult → Nat → TaskScheduler →
    RetryOutcome
  | 0, _, _, lastResult, calls, s => finishFailed s taskId lastResult calls
  | budget + 1, currentTask, retryCount, _, calls, s =>
      let result := c.executeTask retryCount currentTask
      if c.validate retryCount currentTask result then
        { result := result, scheduler := s.markCompleted taskId,
          execCalls := calls + 1 }
      else
        match c.repair retryCount currentTask result with
        | some repaired =>
            executeTaskWithRetryAux c taskId budget repaired (retryCount + 1)
              (some result) (calls + 1) (s.markRetrying taskId)
        | none => finishFailed s taskId (some result) (calls + 1)

/-- `executeTaskWithRetry(task)`: mark executing, then loop with
`retryCount` from 0 while `retryCount <= maxRetries`. -/
def executeTaskWithRetry (c : Collaborators) (maxRetries : Nat)
    (s : TaskScheduler) (task : Task) : RetryOutcome :=
  executeTaskWithRetryAux c task.id (maxRetries + 1) task 0 none 0
    (s.markExecuting task.id)

/-- C6: at any point of the retry loop with budget left, if the current
attempt's result fails validation and the repairer returns no repaired
task, the loop stops at once: exactly this attempt's executor call is
counted, no further ones happen, and the task is marked failed (its
recorded state becomes `FAILED`), regardless of the remaining budget. -/
theorem repair_declined_fails_immediately (c : Collaborators)
    (taskId : String) (budget : Nat) (currentTask : Task) (retryCount : Nat)
    (lastResult : Option ExecutionResult) (calls : Nat) (s : TaskScheduler)
    (task : Task) (hv : c.validate retryCount currentTask
      (c.executeTask retryCount currentTask) = false)
    (hr : c.repair retryCount currentTask
      (c.executeTask retryCount currentTask) = none)
    (ht : mapGet s.taskMap taskId = some task) :
    executeTaskWithRetryAux c taskId (budget + 1) currentTask retryCount
        lastResult calls s =
      { result := c.executeTask retryCount currentTask,
        scheduler := s.markFailed taskId,
        execCalls := calls + 1 } ∧
    (executeTaskWithRetryAux c taskId (budget + 1) currentTask retryCount
        lastResult calls s).scheduler.getTaskStatus taskId =
      some TaskStatus.failed := by
  have heq : executeTaskWithRetryAux c taskId (budget + 1) currentTask
      retryCount lastResult calls s =
      { result := c.executeTask retryCount currentTask,
        scheduler := s.markFailed taskId,
        execCalls := calls + 1 } := by
    simp [executeTaskWithRetryAux, hv, hr, finishFailed]
  refine ⟨heq, ?_⟩
  rw [heq]
  simp [TaskScheduler.markFailed, TaskScheduler.getTaskStatus, ht,
    mapGet_mapSet_self]

/-- Collaborators that always fail validation and never offer a repair. -/
def decliningCollaborators : Collaborators :=
  { executeTask := fun _ t =>
      { taskId := t.id, success := true, output := none, error := none },
    validate := fun _ _ _ => false,
    repair := fun _ _ _ => none }

/-- C6 witness: with a large remaining budget, a declined repair on the
single-task scheduler still fails the task after exactly one executor
call. -/
theorem repair_declined_fails_immediately_witness :
    decliningCollaborators.validate 0 ⟨"t", [], TaskStatus.pending⟩
        (decliningCollaborators.executeTask 0
          ⟨"t", [], TaskStatus.pending⟩) = false ∧
    (executeTaskWithRetryAux decliningCollaborators "t" 100
        ⟨"t", [], TaskStatus.pending⟩ 0 none 0 retryingSetup).execCalls = 1 ∧
    (executeTaskWithRetryAux decliningCollaborators "t" 100
        ⟨"t", [], TaskStatus.pending⟩ 0 none 0
        retryingSetup).scheduler.getTaskStatus "t" =
      some TaskStatus.failed := by
  have h := repair_declined_fails_immediately decliningCollaborators "t" 99
    ⟨"t", [], TaskStatus.pending⟩ 0 none 0 retryingSetup
    ⟨"t", [], TaskStatus.failed⟩ (by decide) (by decide) (by decide)
  exact ⟨by decide, by rw [h.1], h.2⟩

/-! ## RunAgent.executeTask (C7) -/

/-- The outcome of `ResourceManager.allocate`: a thrown exception or
`{success, message?}`. -/
def RunAgentExecuteTask (task : Task) (executingCount maxConcurrent : Nat)
    (allocate : Except String (Bool × Option String))
    (execute : Except String ExecutionResult) : ExecutionResult :=
  if executingCount ≥ maxConcurrent then
    { taskId := task.id, success := false, output := none,
      error := some "Max concurrent tasks reached" }
  else
    match (do
      let resources ← allocate
      if resources.1 = false then
        pure { taskId := task.id, success := false, output := none,
               error := some (resources.2.getD "Resource allocation failed") }
      else
        execute : Except String ExecutionResult) with
    | .ok r => r
    | .error msg =>
        { taskId := task.id, success := false, output := none,
          error := some msg }

/-- C7: whenever the underlying execution throws (and the call got past
the concurrency check and allocation), `executeTask` returns the
synthesized failed result carrying the thrown message — by construction
it returns an `ExecutionResult` and never re-throws. -/
theorem executeTask_catches_throw (task : Task)
    (executingCount maxConcurrent : Nat) (msg : String)
    (message : Option String)
    (hc : executingCount < maxConcurrent)
    (execute : Except String ExecutionResult)
    (hx : execute = .error msg) :
    RunAgentExecuteTask task executingCount maxConcurrent
        (.ok (true, message)) execute =
      { taskId := task.id, success := false, output := none,
        error := some msg } := by
  have hge : ¬ executingCount ≥ maxConcurrent := Nat.not_le.mpr hc
  simp only [RunAgentExecuteTask, hge, hx, if_false, ite_false]
  rfl

/-- C7 witness: a throwing executor on a concrete task. -/
theorem executeTask_catches_throw_witness :
    RunAgentExecuteTask ⟨"t", [], TaskStatus.pending⟩ 0 5 (.ok (true, none))
        (.error "boom") =
      { taskId := "t", success := false, output := none,
        error := some "boom" } :=
  executeTask_catches_throw ⟨"t", [], TaskStatus.pending⟩ 0 5 "boom" none
    (by decide) (.error "boom") rfl

/-! ## The concurrent TaskQueue (C9, C10)

`TaskQueue` keeps a priority-ordered pending array and a `running`
counter.  The asynchronous lifecycle is modelled as a transition system:
`add` inserts by priority and tries to dispatch, a task completion
(`finish`, the `finally` block of `processNext`) decrements `running` and
tries to dispatch again, `pause`/`resume` toggle dispatching.  Queued
entries are reduced to the fields the queue logic reads: `priority` and
the arrival number (`++taskCounter`). -/

structure PendingTask where
  priority : Int
  arrival : Nat
deriving DecidableEq, Repr

structure TaskQueue where
  queue : List PendingTask
  running : Nat
  maxConcurrent : Nat
  defaultTimeout : Nat
  taskCounter : Nat
  isPaused : Bool
deriving DecidableEq, Repr

/-- The constructor: `maxConcurrent ?? 3`, `defaultTimeout ?? 30000`. -/
def TaskQueue.init (maxConcurrent defaultTimeout : Option Nat) : TaskQueue :=
  { queue := [], running := 0, maxConcurrent := maxConcurrent.getD 3,
    defaultTimeout := defaultTimeout.getD 30000, taskCounter := 0,
    isPaused := false }

/-- The insertion of `add`: before the first entry whose priority is
strictly smaller, i.e. after every entry with priority ≥ the new one. -/
def insertByPriority (q : List PendingTask) (t : PendingTask) :
    List PendingTask :=
  match q with
  | [] => [t]
  | h :: rest =>
      if h.priority < t.priority then t :: h :: rest
      else h :: insertByPriority rest t

/-- `processNext()`: dispatch the queue head if not paused, below the
concurrency bound, and nonempty. -/
def TaskQueue.processNext (q : TaskQueue) : TaskQueue :=
  if q.isPaused ∨ q.running ≥ q.maxConcurrent ∨ q.queue.isEmpty then q
  else
    match q.queue with
    | [] => q
    | _ :: rest => { q with queue := rest, running := q.running + 1 }

/-- `add(fn, {priority})`: `priority = 0` when omitted, arrival number
`++taskCounter`, insert by priority, then `processNext()`. -/
def TaskQueue.add (q : TaskQueue) (priority : Option Int) : TaskQueue :=
  let p := priority.getD 0
  let counter := q.taskCounter + 1
  let task : PendingTask := { priority := p, arrival := counter }
  TaskQueue.processNext
    { q with taskCounter := counter, queue := insertByPriority q.queue task }

/-- A running task settles: the `finally` block decrements `running` and
calls `processNext()` (only running tasks can settle). -/
def TaskQueue.finish (q : TaskQueue) : TaskQueue :=
  if q.running = 0 then q
  else TaskQueue.processNext { q with running := q.running - 1 }

/-- `pause()`. -/
def TaskQueue.pause (q : TaskQueue) : TaskQueue := { q with isPaused := true }

/-- `resume()`: clear the flag, then call `processNext()` up to
`maxConcurrent` times. -/
def TaskQueue.resume (q : TaskQueue) : TaskQueue :=
  TaskQueue.processNext^[q.maxConcurrent] { q with isPaused := false }

inductive QueueEvent where
  | add (priority : Option Int)
  | finish
  | pause
  | resume
deriving DecidableEq, Repr

def applyEvent (q : TaskQueue) : QueueEvent → TaskQueue
  | .add priority => q.add priority
  | .finish => q.finish
  | .pause => q.pause
  | .resume => q.resume

def applyEvents (q : TaskQueue) (evs : List QueueEvent) : TaskQueue :=
  evs.foldl applyEvent q

/-- Pending order: strictly descending priority, ties in arrival order. -/
def queueSorted (l : List PendingTask) : Prop :=
  l.Pairwise (fun a b =>
    b.priority < a.priority ∨
    (b.priority = a.priority ∧ a.arrival < b.arrival))

/-- The queue invariant: bounded running counter, priority-sorted pending
list, and arrival numbers bounded by the counter. -/
def QueueInv (q : TaskQueue) : Prop :=
  q.running ≤ q.maxConcurrent ∧ queueSorted q.queue ∧
  ∀ t ∈ q.queue, t.arrival ≤ q.taskCounter

theorem mem_insertByPriority {q : List PendingTask} {t u : PendingTask}
    (h : u ∈ insertByPriority q t) : u = t ∨ u ∈ q := by
  induction q with
  | nil => simpa [insertByPriority] using h
  | cons a rest ih =>
      by_cases ha : a.priority < t.priority
      · rcases by simpa [insertByPriority, ha] using h with h | h | h
        · exact Or.inl h
        · exact Or.inr (by simp [h])
        · exact Or.inr (List.mem_cons_of_mem _ h)
      · rcases by simpa [insertByPriority, ha] using h with h | h
        · exact Or.inr (by simp [h])
        · rcases ih h with h | h
          · exact Or.inl h
          · exact Or.inr (List.mem_cons_of_mem _ h)

theorem insertByPriority_sorted {q : List PendingTask} {t : PendingTask}
    (hs : queueSorted q) (harr : ∀ u ∈ q, u.arrival < t.arrival) :
    queueSorted (insertByPriority q t) := by
  induction q with
  | nil =>
      unfold insertByPriority queueSorted
      simp
  | cons a rest ih =>
      rw [queueSorted, List.pairwise_cons] at hs
      unfold insertByPriority
      by_cases ha : a.priority < t.priority
      · rw [if_pos ha]
        unfold queueSorted
        rw [List.pairwise_cons]
        constructor
        · intro u hu
          rcases List.mem_cons.mp hu with h | h
          · subst h
            exact Or.inl ha
          · rcases hs.1 u h with h' | h'
            · exact Or.inl (lt_trans h' ha)
            · exact Or.inl (h'.1 ▸ ha)
        · exact List.pairwise_cons.mpr hs
      · rw [if_neg ha]
        unfold queueSorted
        rw [List.pairwise_cons]
        constructor
        · intro u hu
          rcases mem_insertByPriority hu with h | h
          · subst h
            rcases lt_or_eq_of_le (not_lt.mp ha) with h' | h'
            · exact Or.inl h'
            · exact Or.inr ⟨h', harr a (by simp)⟩
          · exact hs.1 u h
        · exact ih hs.2 (fun u hu => harr u (List.mem_cons_of_mem _ hu))

theorem processNext_inv {q : TaskQueue} (h : QueueInv q) :
    QueueInv q.processNext ∧ q.processNext.maxConcurrent = q.maxConcurrent ∧
      q.processNext.taskCounter = q.taskCounter := by
  obtain ⟨hr, hsorted, harr⟩ := h
  unfold TaskQueue.processNext
  by_cases hc : q.isPaused ∨ q.running ≥ q.maxConcurrent ∨ q.queue.isEmpty
  · rw [if_pos hc]
    exact ⟨⟨hr, hsorted, harr⟩, rfl, rfl⟩
  · rw [if_neg hc]
    cases hq : q.queue with
    | nil => exact ⟨⟨hr, hsorted, harr⟩, rfl, rfl⟩
    | cons a rest =>
        have hlt : q.running < q.maxConcurrent := by
          rcases not_or.mp hc with ⟨_, h2⟩
          exact Nat.lt_of_not_le (not_or.mp h2).1
        refine ⟨⟨hlt, ?_, ?_⟩, rfl, rfl⟩
        · rw [hq, queueSorted, List.pairwise_cons] at hsorted
          exact hsorted.2
        · intro t ht
          exact harr t (hq ▸ List.mem_cons_of_mem _ ht)

theorem processNext_iterate_inv {q : TaskQueue} (n : Nat) (h : QueueInv q) :
    QueueInv (TaskQueue.processNext^[n] q) ∧
      (TaskQueue.processNext^[n] q).maxConcurrent = q.maxConcurrent ∧
      (TaskQueue.processNext^[n] q).taskCounter = q.taskCounter := by
  induction n generalizing q with
  | zero => exact ⟨h, rfl, rfl⟩
  | succ n ih =>
      rw [Function.iterate_succ_apply]
      obtain ⟨h1, h2, h3⟩ := processNext_inv h
      obtain ⟨g1, g2, g3⟩ := ih h1
      exact ⟨g1, by rw [g2, h2], by rw [g3, h3]⟩

theorem applyEvent_inv {q : TaskQueue} (e : QueueEvent) (h : QueueInv q) :
    QueueInv (applyEvent q e) ∧
      (applyEvent q e).maxConcurrent = q.maxConcurrent := by
  obtain ⟨hr, hsorted, harr⟩ := h
  cases e with
  | add priority =>
      have hinv : QueueInv { q with
          taskCounter := q.taskCounter + 1,
          queue := insertByPriority q.queue
            ⟨priority.getD 0, q.taskCounter + 1⟩ } := by
        refine ⟨hr, ?_, ?_⟩
        · exact insertByPriority_sorted hsorted
            (fun u hu => Nat.lt_succ_of_le (harr u hu))
        · intro t ht
          rcases mem_insertByPriority ht with h | h
          · subst h
            exact Nat.le_refl _
          · exact Nat.le_succ_of_le (harr t h)
      obtain ⟨h1, h2, _⟩ := processNext_inv hinv
      exact ⟨h1, h2⟩
  | finish =>
      show QueueInv q.finish ∧ q.finish.maxConcurrent = q.maxConcurrent
      unfold TaskQueue.finish
      by_cases h0 : q.running = 0
      · rw [if_pos h0]
        exact ⟨⟨hr, hsorted, harr⟩, rfl⟩
      · rw [if_neg h0]
        have hinv : QueueInv { q with running := q.running - 1 } :=
          ⟨Nat.le_trans (Nat.sub_le _ _) hr, hsorted, harr⟩
        obtain ⟨h1, h2, _⟩ := processNext_inv hinv
        exact ⟨h1, h2⟩
  | pause => exact ⟨⟨hr, hsorted, harr⟩, rfl⟩
  | resume =>
      have hinv : QueueInv { q with isPaused := false } := ⟨hr, hsorted, harr⟩
      obtain ⟨h1, h2, _⟩ := processNext_iterate_inv q.maxConcurrent hinv
      exact ⟨h1, h2⟩

/-- C9: starting from a queue constructed with `maxConcurrent = k`, after
any sequence of add / completion / pause / resume events the running
counter never exceeds `k` and the pending list is ordered by strictly
descending priority with equal priorities in arrival order. -/
theorem queue_bounded_and_priority_ordered (k : Nat)
    (defaultTimeout : Option Nat) (evs : List QueueEvent) :
    (applyEvents (TaskQueue.init (some k) defaultTimeout) evs).running ≤ k ∧
    queueSorted
      (applyEvents (TaskQueue.init (some k) defaultTimeout) evs).queue := by
  suffices h : ∀ (q : TaskQueue), QueueInv q →
      QueueInv (applyEvents q evs) ∧
        (applyEvents q evs).maxConcurrent = q.maxConcurrent by
    have h0 : QueueInv (TaskQueue.init (some k) defaultTimeout) := by
      refine ⟨Nat.zero_le _, ?_, ?_⟩
      · unfold TaskQueue.init queueSorted
        simp
      · intro t ht
        simp [TaskQueue.init] at ht
    obtain ⟨⟨hr, hs, _⟩, hm⟩ := h _ h0
    have hm' : (applyEvents (TaskQueue.init (some k) defaultTimeout)
        evs).maxConcurrent = k := hm
    exact ⟨le_of_le_of_eq hr hm', hs⟩
  induction evs with
  | nil => exact fun q h => ⟨h, rfl⟩
  | cons e rest ih =>
      intro q h
      obtain ⟨h1, h2⟩ := applyEvent_inv e h
      obtain ⟨g1, g2⟩ := ih (applyEvent q e) h1
      have hfold : applyEvents q (e :: rest) =
          applyEvents (applyEvent q e) rest := rfl
      rw [hfold]
      exact ⟨g1, g2.trans h2⟩

/-! ## Timeout handling of add / executeWithTimeout (C10) -/

/-- The destructuring default of `add`: `timeout = this.defaultTimeout`
applies only when the option is omitted; an explicit value — including
0 — is kept. -/
def addResolvedTimeout (q : TaskQueue) (timeout : Option Nat) : Nat :=
  timeout.getD q.defaultTimeout

/-- `executeWithTimeout(task)` for a task function that settles with
`fnOutcome` after `fnDuration` ms: `if (!task.timeout)` — i.e. a timeout
of 0 — runs the bare function with no timer; otherwise the function
races a timer that rejects once `timeout` ms elapse first. -/
def executeWithTimeout (timeout fnDuration : Nat)
    (fnOutcome : Except String String) : Except String String :=
  if timeout = 0 then fnOutcome
  else if timeout < fnDuration then .error "Task timed out"
  else fnOutcome

/-- C10: an omitted `timeout` option resolves to the configured
`defaultTimeout` (30000 when the queue was built without options), while
an explicit `timeout: 0` is kept and disables enforcement entirely — the
result is exactly the function's own outcome, however long it runs. -/
theorem timeout_default_and_zero_disables :
    (TaskQueue.init none none).defaultTimeout = 30000 ∧
    (∀ q : TaskQueue, addResolvedTimeout q none = q.defaultTimeout) ∧
    (∀ q : TaskQueue, addResolvedTimeout q (some 0) = 0) ∧
    (∀ (fnDuration : Nat) (fnOutcome : Except String String),
      executeWithTimeout 0 fnDuration fnOutcome = fnOutcome) := by
  refine ⟨rfl, fun q => rfl, fun q => rfl, fun d o => rfl⟩

/-! ## Paths and cycles

`Edge g a b` holds when the adjacency list records an edge from `a` to
`b`.  A cycle is a nonempty edge path from some node back to itself,
written as `List.Chain (Edge g) u (p ++ [u])`. -/

def Edge (g : DAGraph) (a b : String) : Prop := b ∈ adjTargets g a

instance (g : DAGraph) : DecidableRel (Edge g) := fun a b =>
  inferInstanceAs (Decidable (b ∈ adjTargets g a))

def HasCycleProp (g : DAGraph) : Prop :=
  ∃ u p, List.Chain (Edge g) u (p ++ [u])

/-- A relation containing every edge and transitive relates any cycle
node to itself. -/
theorem hasCycleProp_rel {g : DAGraph} {r : String → String → Prop}
    (hsub : ∀ a b, Edge g a b → r a b) (htr : Transitive r)
    (hc : HasCycleProp g) : ∃ u, r u u := by
  obtain ⟨u, p, hch⟩ := hc
  suffices h : ∀ (l : List String) (a : String),
      List.Chain (Edge g) a l → ∀ x ∈ l, r a x by
    exact ⟨u, h (p ++ [u]) u hch u (by simp)⟩
  intro l
  induction l with
  | nil => intro a _ x hx; simp at hx
  | cons v rest ih =>
      intro a hch x hx
      rw [List.chain_cons] at hch
      rcases List.mem_cons.mp hx with h | h
      · exact h ▸ hsub a v hch.1
      · exact htr (hsub a v hch.1) (ih v hch.2 x h)

/-- No edge-decreasing (or edge-increasing) rank function can exist on a
cyclic graph; conversely its existence certifies acyclicity. -/
theorem acyclic_of_rank {g : DAGraph} (ord : String → Nat)
    (hord : ∀ a b, Edge g a b → ord b < ord a) : ¬ HasCycleProp g := by
  intro hc
  obtain ⟨u, hu⟩ := hasCycleProp_rel
    (r := fun a b => ord b < ord a) hord
    (fun _ _ _ hab hbc => lt_trans hbc hab) hc
  exact lt_irrefl _ hu

/-! ## Soundness of hasCycle: a positive answer exhibits a cycle

The recursion stack is a path: each pushed node is a successor of the
node below it. -/

def stackChain (g : DAGraph) : List String → Prop
  | [] => True
  | [_] => True
  | a :: b :: rest => Edge g b a ∧ stackChain g (b :: rest)

/-- Every stack member reaches the stack head along edges. -/
theorem stackChain_reaches_head (g : DAGraph) :
    ∀ (s : List String) (head : String), stackChain g (head :: s) →
      ∀ v ∈ head :: s, v = head ∨
        ∃ l, List.Chain (Edge g) v (l ++ [head]) := by
  intro s
  induction s with
  | nil =>
      intro head _ v hv
      simp at hv
      exact Or.inl hv
  | cons b s' ih =>
      intro head hch v hv
      obtain ⟨he, hch'⟩ := hch
      rcases List.mem_cons.mp hv with h | h
      · exact Or.inl h
      · rcases ih b hch' v h with h' | ⟨l, hl⟩
        · refine Or.inr ⟨[], ?_⟩
          simp only [List.nil_append]
          refine List.chain_singleton.mpr ?_
          rw [h']
          exact he
        · refine Or.inr ⟨l ++ [b], ?_⟩
          rw [List.append_assoc]
          exact List.chain_split.mpr ⟨hl, List.chain_singleton.mpr he⟩

/-- Closing the loop: an edge from the stack head back to any stack
member yields a cycle. -/
theorem cycle_of_edge_into_stack (g : DAGraph) {s : List String}
    {head v : String} (hch : stackChain g (head :: s)) (hv : v ∈ head :: s)
    (he : Edge g head v) : HasCycleProp g := by
  rcases stackChain_reaches_head g s head hch v hv with h | ⟨l, hl⟩
  · exact ⟨v, [], List.chain_singleton.mpr (h ▸ he)⟩
  · refine ⟨v, l ++ [head], ?_⟩
    rw [List.append_assoc]
    exact List.chain_split.mpr ⟨hl, List.chain_singleton.mpr he⟩

theorem dfsFold_sound (g : DAGraph)
    (next : String → List String → List String → Bool × List String)
    (hnext : ∀ v visited stack, stackChain g (v :: stack) →
      (next v visited stack).1 = true → HasCycleProp g) :
    ∀ (vs : List String) (u : String) (rest visited : List String),
      (∀ v ∈ vs, Edge g u v) → stackChain g (u :: rest) →
      (dfsFold next vs visited (u :: rest)).1 = true → HasCycleProp g := by
  intro vs
  induction vs with
  | nil =>
      intro u rest visited _ _ h
      simp [dfsFold] at h
  | cons v vs' ih =>
      intro u rest visited hvs hch h
      rw [dfsFold] at h
      by_cases hvis : v ∈ visited
      · rw [if_pos hvis] at h
        by_cases hstk : v ∈ u :: rest
        · exact cycle_of_edge_into_stack g hch hstk (hvs v (by simp))
        · rw [if_neg hstk] at h
          exact ih u rest visited (fun x hx => hvs x (by simp [hx])) hch h
      · rw [if_neg hvis] at h
        by_cases hr : (next v visited (u :: rest)).1 = true
        · exact hnext v visited (u :: rest)
            ⟨hvs v (by simp), hch⟩ hr
        · rw [if_neg hr] at h
          exact ih u rest _ (fun x hx => hvs x (by simp [hx])) hch h

theorem dfsNode_sound (g : DAGraph) :
    ∀ (fuel : Nat) (u : String) (visited stack : List String),
      stackChain g (u :: stack) →
      (dfsNode g fuel u visited stack).1 = true → HasCycleProp g := by
  intro fuel
  induction fuel with
  | zero =>
      intro u visited stack _ h
      simp [dfsNode] at h
  | succ fuel ih =>
      intro u visited stack hch h
      rw [dfsNode] at h
      exact dfsFold_sound g (dfsNode g fuel) (fun v vis stk => ih v vis stk)
        (adjTargets g u) u stack (u :: visited) (fun v hv => hv) hch h

theorem hasCycleAux_sound (g : DAGraph) :
    ∀ (l visited : List String), hasCycleAux g l visited = true →
      HasCycleProp g := by
  intro l
  induction l with
  | nil =>
      intro visited h
      simp [hasCycleAux] at h
  | cons u rest ih =>
      intro visited h
      rw [hasCycleAux] at h
      by_cases hvis : u ∈ visited
      · exact ih visited (by simpa [hvis] using h)
      · rw [if_neg hvis] at h
        by_cases hr : (dfsNode g (dfsFuel g) u visited []).1 = true
        · exact dfsNode_sound g (dfsFuel g) u visited [] trivial hr
        · rw [if_neg hr] at h
          exact ih _ h

/-- `hasCycle() = true` really exhibits a cycle. -/
theorem hasCycle_sound {g : DAGraph} (h : g.hasCycle = true) :
    HasCycleProp g :=
  hasCycleAux_sound g (nodeIds g) [] h

/-- Contrapositive: an acyclic graph passes the cycle check. -/
theorem hasCycle_eq_false_of_acyclic {g : DAGraph} (h : ¬ HasCycleProp g) :
    g.hasCycle = false := by
  cases hc : g.hasCycle with
  | false => rfl
  | true => exact absurd (hasCycle_sound hc) h

/-! ## Completeness of hasCycle: a false answer certifies acyclicity

Invariant: finished nodes (visited and no longer on the stack) only have
finished successors, and some rank strictly drops along each such edge —
when the whole traversal ends with `false`, the rank orders all nodes and
rules out any cycle. -/

def Cert (g : DAGraph) (visited stack : List String) : Prop :=
  ∃ ord : String → Nat, ∀ w, w ∈ visited → w ∉ stack →
    ∀ v ∈ adjTargets g w, v ∈ visited ∧ v ∉ stack ∧ ord v < ord w

theorem cert_nil (g : DAGraph) (stack : List String) : Cert g [] stack :=
  ⟨fun _ => 0, fun w hw => absurd hw (List.not_mem_nil w)⟩

theorem cert_push {g : DAGraph} {visited stack : List String} {u : String}
    (hcert : Cert g visited stack) (hnv : u ∉ visited) :
    Cert g (u :: visited) (u :: stack) := by
  obtain ⟨ord, hord⟩ := hcert
  refine ⟨ord, ?_⟩
  intro w hw hws v hv
  have hwu : w ≠ u := fun h => hws (h ▸ List.mem_cons_self u stack)
  have hw' : w ∈ visited := by
    rcases List.mem_cons.mp hw with h | h
    · exact absurd h hwu
    · exact h
  have hws' : w ∉ stack := fun h => hws (List.mem_cons_of_mem _ h)
  obtain ⟨h1, h2, h3⟩ := hord w hw' hws' v hv
  have hvu : v ≠ u := fun h => hnv (h ▸ h1)
  exact ⟨List.mem_cons_of_mem _ h1,
    fun h => (List.mem_cons.mp h).elim hvu h2, h3⟩

theorem le_foldr_max (f : String → Nat) :
    ∀ (l : List String) (x : String), x ∈ l →
      f x ≤ (l.map f).foldr max 0 := by
  intro l
  induction l with
  | nil => intro x hx; simp at hx
  | cons a rest ih =>
      intro x hx
      rcases List.mem_cons.mp hx with h | h
      · subst h
        exact le_max_of_le_left (le_refl _)
      · exact le_max_of_le_right (ih x h)

theorem cert_pop {g : DAGraph} {visited stack : List String} {u : String}
    (hcert : Cert g visited (u :: stack))
    (hadj : ∀ v ∈ adjTargets g u, v ∈ visited ∧ v ∉ u :: stack) :
    Cert g visited stack := by
  obtain ⟨ord, hord⟩ := hcert
  refine ⟨fun x => if x = u
    then ((adjTargets g u).map ord).foldr max 0 + 1 else ord x, ?_⟩
  intro w hw hws v hv
  by_cases hwu : w = u
  · have hv' : v ∈ adjTargets g u := by rw [← hwu]; exact hv
    obtain ⟨h1, h2⟩ := hadj v hv'
    have hvu : v ≠ u := fun h => h2 (h ▸ List.mem_cons_self _ _)
    refine ⟨h1, fun h => h2 (List.mem_cons_of_mem _ h), ?_⟩
    simp only [if_neg hvu, if_pos hwu]
    exact Nat.lt_succ_of_le (le_foldr_max ord (adjTargets g u) v hv')
  · have hws' : w ∉ u :: stack :=
      fun h => (List.mem_cons.mp h).elim hwu hws
    obtain ⟨h1, h2, h3⟩ := hord w hw hws' v hv
    have hvu : v ≠ u := fun h => h2 (h ▸ List.mem_cons_self _ _)
    refine ⟨h1, fun h => h2 (List.mem_cons_of_mem _ h), ?_⟩
    simp only [if_neg hvu, if_neg hwu]
    exact h3

theorem length_filter_not_mem_mono {U v₁ v₂ : List String}
    (h : ∀ x ∈ v₁, x ∈ v₂) :
    (U.filter (fun x => x ∉ v₂)).length ≤
      (U.filter (fun x => x ∉ v₁)).length := by
  induction U with
  | nil => simp
  | cons a rest ih =>
      by_cases h2 : a ∈ v₂
      · have : (a :: rest).filter (fun x => x ∉ v₂) =
            rest.filter (fun x => x ∉ v₂) := by
          simp [List.filter_cons, h2]
        rw [this]
        refine le_trans ih ?_
        by_cases h1 : a ∈ v₁
        · simp [List.filter_cons, h1]
        · simp [List.filter_cons, h1]
      · have h1 : a ∉ v₁ := fun hh => h2 (h a hh)
        simp only [List.filter_cons, h1, h2]
        simpa using ih

theorem length_filter_cons_lt {U visited : List String} {u : String}
    (hu : u ∈ U) (hnv : u ∉ visited) :
    (U.filter (fun x => x ∉ u :: visited)).length <
      (U.filter (fun x => x ∉ visited)).length := by
  induction U with
  | nil => simp at hu
  | cons a rest ih =>
      by_cases hau : a = u
      · subst hau
        have hdrop : (a :: rest).filter (fun x => x ∉ a :: visited) =
            rest.filter (fun x => x ∉ a :: visited) := by
          simp [List.filter_cons]
        have hkeep : (a :: rest).filter (fun x => x ∉ visited) =
            a :: rest.filter (fun x => x ∉ visited) := by
          simp [List.filter_cons, hnv]
        rw [hdrop, hkeep]
        exact Nat.lt_succ_of_le
          (length_filter_not_mem_mono
            (fun x hx => List.mem_cons_of_mem _ hx))
      · have hu' : u ∈ rest := (List.mem_cons.mp hu).resolve_left
          (fun h => hau h.symm)
        by_cases hav : a ∈ visited
        · have hav' : a ∈ u :: visited := List.mem_cons_of_mem _ hav
          simp only [List.filter_cons, hav, hav']
          simpa using ih hu'
        · have hav' : a ∉ u :: visited := by
            intro h
            rcases List.mem_cons.mp h with h | h
            · exact hau h
            · exact hav h
          simp only [List.filter_cons, hav, hav']
          simpa using Nat.succ_lt_succ (ih hu')

/-- The successors of any node lie in the DFS universe. -/
theorem adjTargets_subset_universe (g : DAGraph) (u : String) :
    ∀ v ∈ adjTargets g u, v ∈ dfsUniverse g := by
  intro v hv
  unfold adjTargets at hv
  cases hm : mapGet g.adjacencyList u with
  | none => rw [hm] at hv; simp at hv
  | some ts =>
      rw [hm] at hv
      simp only [Option.getD_some] at hv
      have : (u, ts) ∈ g.adjacencyList := mem_of_mapGet_eq_some hm
      unfold dfsUniverse
      refine List.mem_append_right _ ?_
      exact List.mem_flatMap.mpr ⟨(u, ts), this, hv⟩

theorem dfsFold_complete (g : DAGraph) (fuel : Nat)
    (next : String → List String → List String → Bool × List String)
    (hnext : ∀ v visited stack, v ∈ dfsUniverse g → v ∉ visited →
      (∀ x ∈ stack, x ∈ visited) →
      ((dfsUniverse g).filter (fun x => x ∉ visited)).length < fuel →
      Cert g visited stack → (next v visited stack).1 = false →
      (∀ x ∈ visited, x ∈ (next v visited stack).2) ∧
        v ∈ (next v visited stack).2 ∧ Cert g (next v visited stack).2 stack) :
    ∀ (vs visited stack : List String),
      (∀ v ∈ vs, v ∈ dfsUniverse g) → (∀ x ∈ stack, x ∈ visited) →
      ((dfsUniverse g).filter (fun x => x ∉ visited)).length < fuel →
      Cert g visited stack →
      (dfsFold next vs visited stack).1 = false →
      (∀ x ∈ visited, x ∈ (dfsFold next vs visited stack).2) ∧
        (∀ v ∈ vs, v ∈ (dfsFold next vs visited stack).2 ∧ v ∉ stack) ∧
        Cert g (dfsFold next vs visited stack).2 stack := by
  intro vs
  induction vs with
  | nil =>
      intro visited stack _ _ _ hcert _
      refine ⟨fun x hx => hx, ?_, hcert⟩
      intro v hv
      simp at hv
  | cons v vs' ih =>
      intro visited stack hvs hsub hbound hcert hfalse
      rw [dfsFold] at hfalse ⊢
      by_cases hvis : v ∈ visited
      · rw [if_pos hvis] at hfalse ⊢
        by_cases hstk : v ∈ stack
        · rw [if_pos hstk] at hfalse
          simp at hfalse
        · rw [if_neg hstk] at hfalse ⊢
          obtain ⟨p1, p2, p3⟩ := ih visited stack
            (fun x hx => hvs x (List.mem_cons_of_mem _ hx))
            hsub hbound hcert hfalse
          refine ⟨p1, ?_, p3⟩
          intro x hx
          rcases List.mem_cons.mp hx with h | h
          · exact h ▸ ⟨p1 v hvis, hstk⟩
          · exact p2 x h
      · rw [if_neg hvis] at hfalse ⊢
        by_cases hr : (next v visited stack).1 = true
        · rw [if_pos hr] at hfalse
          rw [hr] at hfalse
          simp at hfalse
        · have hrf : (next v visited stack).1 = false :=
            Bool.eq_false_iff.mpr hr
          rw [if_neg hr] at hfalse ⊢
          obtain ⟨q1, q2, q3⟩ := hnext v visited stack
            (hvs v (List.mem_cons_self _ _)) hvis hsub hbound hcert hrf
          obtain ⟨p1, p2, p3⟩ := ih (next v visited stack).2 stack
            (fun x hx => hvs x (List.mem_cons_of_mem _ hx))
            (fun x hx => q1 x (hsub x hx))
            (lt_of_le_of_lt (length_filter_not_mem_mono q1) hbound)
            q3 hfalse
          refine ⟨fun x hx => p1 x (q1 x hx), ?_, p3⟩
          intro x hx
          rcases List.mem_cons.mp hx with h | h
          · subst h
            exact ⟨p1 x q2, fun hh => hvis (hsub x hh)⟩
          · exact p2 x h

theorem dfsNode_complete (g : DAGraph) :
    ∀ (fuel : Nat) (u : String) (visited stack : List String),
      u ∈ dfsUniverse g → u ∉ visited → (∀ x ∈ stack, x ∈ visited) →
      ((dfsUniverse g).filter (fun x => x ∉ visited)).length < fuel →
      Cert g visited stack →
      (dfsNode g fuel u visited stack).1 = false →
      (∀ x ∈ visited, x ∈ (dfsNode g fuel u visited stack).2) ∧
        u ∈ (dfsNode g fuel u visited stack).2 ∧
        Cert g (dfsNode g fuel u visited stack).2 stack := by
  intro fuel
  induction fuel with
  | zero =>
      intro u visited stack _ _ _ hbound _ _
      exact absurd hbound (Nat.not_lt_zero _)
  | succ fuel ih =>
      intro u visited stack hu hnv hsub hbound hcert hfalse
      rw [dfsNode] at hfalse ⊢
      obtain ⟨p1, p2, p3⟩ := dfsFold_complete g fuel (dfsNode g fuel) ih
        (adjTargets g u) (u :: visited) (u :: stack)
        (adjTargets_subset_universe g u)
        (fun x hx => (List.mem_cons.mp hx).elim
          (fun h => h ▸ List.mem_cons_self _ _)
          (fun h => List.mem_cons_of_mem _ (hsub x h)))
        (lt_of_lt_of_le (length_filter_cons_lt hu hnv)
          (Nat.lt_succ_iff.mp hbound))
        (cert_push hcert hnv) hfalse
      have hvmem : ∀ x ∈ visited,
          x ∈ (dfsFold (dfsNode g fuel) (adjTargets g u) (u :: visited)
            (u :: stack)).2 :=
        fun x hx => p1 x (List.mem_cons_of_mem _ hx)
      have humem : u ∈ (dfsFold (dfsNode g fuel) (adjTargets g u)
          (u :: visited) (u :: stack)).2 :=
        p1 u (List.mem_cons_self _ _)
      exact ⟨hvmem, humem, cert_pop p3 p2⟩

theorem hasCycleAux_complete (g : DAGraph) :
    ∀ (l visited : List String), (∀ u ∈ l, u ∈ dfsUniverse g) →
      Cert g visited [] → hasCycleAux g l visited = false →
      ∃ visited', (∀ x ∈ visited, x ∈ visited') ∧
        (∀ u ∈ l, u ∈ visited') ∧ Cert g visited' [] := by
  intro l
  induction l with
  | nil =>
      intro visited _ hcert _
      exact ⟨visited, fun x hx => hx, fun u hu => absurd hu
        (List.not_mem_nil u), hcert⟩
  | cons u rest ih =>
      intro visited hl hcert hfalse
      rw [hasCycleAux] at hfalse
      by_cases hvis : u ∈ visited
      · rw [if_pos hvis] at hfalse
        obtain ⟨v', s1, s2, s3⟩ := ih visited
          (fun x hx => hl x (List.mem_cons_of_mem _ hx)) hcert hfalse
        refine ⟨v', s1, ?_, s3⟩
        intro x hx
        rcases List.mem_cons.mp hx with h | h
        · exact h ▸ s1 u hvis
        · exact s2 x h
      · rw [if_neg hvis] at hfalse
        by_cases hr : (dfsNode g (dfsFuel g) u visited []).1 = true
        · rw [if_pos hr] at hfalse
          simp at hfalse
        · have hrf : (dfsNode g (dfsFuel g) u visited []).1 = false :=
            Bool.eq_false_iff.mpr hr
          rw [if_neg hr] at hfalse
          have hbound : ((dfsUniverse g).filter
              (fun x => x ∉ visited)).length < dfsFuel g :=
            Nat.lt_succ_of_le (List.length_filter_le _ _)
          obtain ⟨q1, q2, q3⟩ := dfsNode_complete g (dfsFuel g) u visited []
            (hl u (List.mem_cons_self _ _)) hvis
            (fun x hx => absurd hx (List.not_mem_nil x)) hbound hcert hrf
          obtain ⟨v', s1, s2, s3⟩ := ih
            (dfsNode g (dfsFuel g) u visited []).2
            (fun x hx => hl x (List.mem_cons_of_mem _ hx)) q3 hfalse
          refine ⟨v', fun x hx => s1 x (q1 x hx), ?_, s3⟩
          intro x hx
          rcases List.mem_cons.mp hx with h | h
          · exact h ▸ s1 u q2
          · exact s2 x h

/-- The source of any edge is a key of the adjacency list. -/
theorem edge_source_mem_adj_keys {g : DAGraph} {a b : String}
    (h : Edge g a b) : a ∈ g.adjacencyList.map Prod.fst := by
  unfold Edge adjTargets at h
  cases hm : mapGet g.adjacencyList a with
  | none => rw [hm] at h; simp at h
  | some ts => exact mem_keys_of_mapGet_eq_some hm

/-- Completeness of `hasCycle()`: on any graph whose adjacency keys are
among its node ids (true of every graph the class builds), a cycle makes
`hasCycle()` answer true. -/
theorem hasCycle_complete {g : DAGraph}
    (hkeys : ∀ a ∈ g.adjacencyList.map Prod.fst, a ∈ nodeIds g)
    (hc : HasCycleProp g) : g.hasCycle = true := by
  cases hcyc : g.hasCycle with
  | true => rfl
  | false =>
      exfalso
      have hl : ∀ u ∈ nodeIds g, u ∈ dfsUniverse g :=
        fun u hu => List.mem_append_left _ hu
      obtain ⟨v', _, hall, ord, hord⟩ :=
        hasCycleAux_complete g (nodeIds g) [] hl (cert_nil g []) hcyc
      refine absurd hc (acyclic_of_rank ord ?_)
      intro a b he
      have ha : a ∈ v' := hall a (hkeys a (edge_source_mem_adj_keys he))
      exact (hord a ha (List.not_mem_nil a) b he).2.2

/-! ## findCycleNodes returns a nonempty set whenever a cycle exists

`findCycleNodes`'s DFS has exactly the control flow of `hasCycle`'s; the
extra `path` array always holds the recursion-stack members. -/

theorem findDfsFold_agrees
    (next : String → List String → List String → Bool × List String)
    (nextF : String → List String → List String → List String →
      Bool × List String × List String)
    (hagree : ∀ v visited stack path,
      (nextF v visited stack path).1 = (next v visited stack).1 ∧
      (nextF v visited stack path).2.1 = (next v visited stack).2) :
    ∀ (vs visited stack path : List String),
      (findDfsFold nextF vs visited stack path).1 =
        (dfsFold next vs visited stack).1 ∧
      (findDfsFold nextF vs visited stack path).2.1 =
        (dfsFold next vs visited stack).2 := by
  intro vs
  induction vs with
  | nil =>
      intro visited stack path
      simp [findDfsFold, dfsFold]
  | cons v vs' ih =>
      intro visited stack path
      rw [findDfsFold, dfsFold]
      by_cases hvis : v ∈ visited
      · rw [if_pos hvis, if_pos hvis]
        by_cases hstk : v ∈ stack
        · rw [if_pos hstk, if_pos hstk]
          exact ⟨rfl, rfl⟩
        · rw [if_neg hstk, if_neg hstk]
          exact ih visited stack path
      · rw [if_neg hvis, if_neg hvis]
        obtain ⟨ha1, ha2⟩ := hagree v visited stack path
        by_cases hr : (next v visited stack).1 = true
        · rw [if_pos hr, if_pos (ha1.trans hr)]
          exact ⟨ha1.trans hr ▸ (ha1.trans hr).symm ▸ ha1, ha2⟩
        · have hr' : ¬ (nextF v visited stack path).1 = true := by
            rw [ha1]; exact hr
          rw [if_neg hr, if_neg hr']
          rw [ha2]
          exact ih (next v visited stack).2 stack path

theorem findDfsNode_agrees (g : DAGraph) :
    ∀ (fuel : Nat) (u : String) (visited stack path : List String),
      (findDfsNode g fuel u visited stack path).1 =
        (dfsNode g fuel u visited stack).1 ∧
      (findDfsNode g fuel u visited stack path).2.1 =
        (dfsNode g fuel u visited stack).2 := by
  intro fuel
  induction fuel with
  | zero =>
      intro u visited stack path
      simp [findDfsNode, dfsNode]
  | succ fuel ih =>
      intro u visited stack path
      rw [findDfsNode, dfsNode]
      exact findDfsFold_agrees (dfsNode g fuel) (findDfsNode g fuel)
        (fun v vis stk p => ih v vis stk p)
        (adjTargets g u) (u :: visited) (u :: stack) (path ++ [u])

theorem findDfsFold_found_nonempty
    (nextF : String → List String → List String → List String →
      Bool × List String × List String)
    (hnext : ∀ v visited stack path, (∀ x, x ∈ stack ↔ x ∈ path) →
      (nextF v visited stack path).1 = true →
      (nextF v visited stack path).2.2 ≠ []) :
    ∀ (vs visited stack path : List String),
      (∀ x, x ∈ stack ↔ x ∈ path) →
      (findDfsFold nextF vs visited stack path).1 = true →
      (findDfsFold nextF vs visited stack path).2.2 ≠ [] := by
  intro vs
  induction vs with
  | nil =>
      intro visited stack path _ h
      simp [findDfsFold] at h
  | cons v vs' ih =>
      intro visited stack path hsp h
      rw [findDfsFold] at h ⊢
      by_cases hvis : v ∈ visited
      · rw [if_pos hvis] at h ⊢
        by_cases hstk : v ∈ stack
        · rw [if_pos hstk] at h ⊢
          have hvp : v ∈ path := (hsp v).mp hstk
          intro hnil
          have hle := List.drop_eq_nil_iff.mp hnil
          exact absurd (List.indexOf_lt_length.mpr hvp)
            (Nat.not_lt.mpr hle)
        · rw [if_neg hstk] at h ⊢
          exact ih visited stack path hsp h
      · rw [if_neg hvis] at h ⊢
        by_cases hr : (nextF v visited stack path).1 = true
        · rw [if_pos hr] at h ⊢
          exact hnext v visited stack path hsp hr
        · rw [if_neg hr] at h ⊢
          exact ih _ stack path hsp h

theorem findDfsNode_found_nonempty (g : DAGraph) :
    ∀ (fuel : Nat) (u : String) (visited stack path : List String),
      (∀ x, x ∈ stack ↔ x ∈ path) →
      (findDfsNode g fuel u visited stack path).1 = true →
      (findDfsNode g fuel u visited stack path).2.2 ≠ [] := by
  intro fuel
  induction fuel with
  | zero =>
      intro u visited stack path _ h
      simp [findDfsNode] at h
  | succ fuel ih =>
      intro u visited stack path hsp h
      rw [findDfsNode] at h ⊢
      refine findDfsFold_found_nonempty (findDfsNode g fuel)
        (fun v vis stk p => ih v vis stk p)
        (adjTargets g u) (u :: visited) (u :: stack) (path ++ [u]) ?_ h
      intro x
      constructor
      · intro hx
        rcases List.mem_cons.mp hx with h' | h'
        · exact List.mem_append_right _ (by simp [h'])
        · exact List.mem_append_left _ ((hsp x).mp h')
      · intro hx
        rcases List.mem_append.mp hx with h' | h'
        · exact List.mem_cons_of_mem _ ((hsp x).mpr h')
        · simp at h'
          simp [h']

theorem findCycleAux_nonempty (g : DAGraph) :
    ∀ (l visited : List String), hasCycleAux g l visited = true →
      findCycleAux g l visited ≠ [] := by
  intro l
  induction l with
  | nil =>
      intro visited h
      simp [hasCycleAux] at h
  | cons u rest ih =>
      intro visited h
      rw [hasCycleAux] at h
      rw [findCycleAux]
      by_cases hvis : u ∈ visited
      · rw [if_pos hvis] at h ⊢
        exact ih visited h
      · rw [if_neg hvis] at h ⊢
        obtain ⟨ha1, ha2⟩ := findDfsNode_agrees g (dfsFuel g) u visited [] []
        by_cases hr : (dfsNode g (dfsFuel g) u visited []).1 = true
        · rw [if_pos (ha1.trans hr)]
          exact findDfsNode_found_nonempty g (dfsFuel g) u visited [] []
            (fun x => by simp) (ha1.trans hr)
        · have hr' : ¬ (findDfsNode g (dfsFuel g) u visited [] []).1 = true := by
            rw [ha1]; exact hr
          simp only [if_neg hr] at h
          simp only [if_neg hr', ha2]
          exact ih _ h

theorem dedupFirst_ne_nil {l : List String} (h : l ≠ []) :
    dedupFirst l ≠ [] := by
  cases l with
  | nil => exact absurd rfl h
  | cons x xs => simp [dedupFirst]

/-- On a cyclic graph, `findCycleNodes()` is nonempty. -/
theorem findCycleNodes_ne_nil {g : DAGraph} (h : g.hasCycle = true) :
    g.findCycleNodes ≠ [] :=
  dedupFirst_ne_nil (findCycleAux_nonempty g (nodeIds g) [] h)

/-! ## Well-formed graphs

Invariants every graph built through `addNode` / `addEdge` /
`buildFromDependencies` / `removeNode` maintains: the three maps share
their key set (node ids, duplicate-free), adjacency sets are
duplicate-free and point at nodes, and each recorded in-degree equals the
number of adjacency sets containing the node. -/

/-- Number of predecessors of `v` among `keys`. -/
def predCountIn (g : DAGraph) (keys : List String) (v : String) : Int :=
  ((keys.filter (fun u => g.hasEdge u v)).length : Int)

/-- Number of predecessors of `v` in the whole graph. -/
def predCount (g : DAGraph) (v : String) : Int :=
  predCountIn g (g.adjacencyList.map Prod.fst) v

def DAGraph.WF (g : DAGraph) : Prop :=
  (nodeIds g).Nodup ∧
  g.adjacencyList.map Prod.fst = nodeIds g ∧
  g.inDegree.map Prod.fst = nodeIds g ∧
  (∀ p ∈ g.adjacencyList, p.2.Nodup ∧ ∀ t ∈ p.2, t ∈ nodeIds g) ∧
  (∀ p ∈ g.inDegree, p.2 = predCount g p.1)

instance (g : DAGraph) : Decidable g.WF :=
  inferInstanceAs (Decidable ((nodeIds g).Nodup ∧
    g.adjacencyList.map Prod.fst = nodeIds g ∧
    g.inDegree.map Prod.fst = nodeIds g ∧
    (∀ p ∈ g.adjacencyList, p.2.Nodup ∧ ∀ t ∈ p.2, t ∈ nodeIds g) ∧
    (∀ p ∈ g.inDegree, p.2 = predCount g p.1)))

/-- C4: on every well-formed graph containing at least one cycle
(wherever it lies), `hasCycle()` returns true, and the scheduler's
`getExecutionPlan()` returns — without throwing — a result with
`hasCycle` set, a nonempty `cycleNodes` list, and an empty layer
sequence. -/
theorem cycle_detected_and_reported (s : TaskScheduler)
    (hwf : s.graph.WF) (hc : HasCycleProp s.graph) :
    s.graph.hasCycle = true ∧
    ∃ r, s.getExecutionPlan = .ok r ∧ r.hasCycle = true ∧
      r.executionOrder = [] ∧ ∃ c, r.cycleNodes = some c ∧ c ≠ [] := by
  have hkeys : ∀ a ∈ s.graph.adjacencyList.map Prod.fst,
      a ∈ nodeIds s.graph := fun a ha => hwf.2.1 ▸ ha
  have hcyc := hasCycle_complete hkeys hc
  refine ⟨hcyc, ⟨ScheduleResult.mk [] true (some s.graph.findCycleNodes)
    s.taskMap, ?_, rfl, rfl, s.graph.findCycleNodes, rfl,
    findCycleNodes_ne_nil hcyc⟩⟩
  unfold TaskScheduler.getExecutionPlan
  rw [if_pos hcyc]

/-- The two-node cycle `X → Y → X` (spec Scenario B), wrapped in a
scheduler. -/
def cyclicSetup : TaskScheduler :=
  ⟨⟨[("X", ["Y"]), ("Y", ["X"])], [("X", ["Y"]), ("Y", ["X"])],
    [("X", 1), ("Y", 1)]⟩, [], [],
   [("X", ⟨"X", ["Y"], TaskStatus.pending⟩),
    ("Y", ⟨"Y", ["X"], TaskStatus.pending⟩)]⟩

/-- C4 witness: the two-node cycle is well-formed and cyclic, and the
theorem's conclusion holds for it. -/
theorem cycle_detected_and_reported_witness :
    cyclicSetup.graph.hasCycle = true ∧
    ∃ r, cyclicSetup.getExecutionPlan = .ok r ∧ r.hasCycle = true ∧
      r.executionOrder = [] ∧ ∃ c, r.cycleNodes = some c ∧ c ≠ [] :=
  cycle_detected_and_reported cyclicSetup (by decide)
    ⟨"X", ["Y"], List.Chain.cons (by decide)
      (List.Chain.cons (by decide) List.Chain.nil)⟩

/-! ## Kahn's algorithm produces correct layers (topologicalSort)

Outline: the in-degree clone stays consistent — each recorded degree is
the number of remaining predecessors — while whole zero-degree layers
are removed; consistency plus acyclicity forces every round to find a
nonempty layer (otherwise every remaining node keeps a remaining
predecessor, and following predecessors long enough repeats a node,
i.e. exhibits a cycle). -/

theorem keys_filter_map {β : Type} (m : List (String × β)) (Q : String → Bool) :
    (m.filter (fun p => Q p.1)).map Prod.fst = (m.map Prod.fst).filter Q := by
  induction m with
  | nil => rfl
  | cons a rest ih =>
      by_cases h : Q a.1 <;> simp [List.filter_cons, h, ih]

theorem length_filter_partition (l : List String) (P Q : String → Bool) :
    (l.filter P).length =
      ((l.filter Q).filter P).length +
        ((l.filter (fun x => ! Q x)).filter P).length := by
  induction l with
  | nil => rfl
  | cons a rest ih =>
      by_cases hq : Q a <;> by_cases hp : P a <;>
        simp [List.filter_cons, hq, hp, ih] <;> omega

/-- If every node of a nonempty list has a predecessor inside the list,
the graph is cyclic: following predecessors `|S|+1` times repeats a
node. -/
theorem cycle_of_all_have_preds {g : DAGraph} {S : List String}
    (hne : S ≠ []) (hpred : ∀ v ∈ S, ∃ u, u ∈ S ∧ Edge g u v) :
    HasCycleProp g := by
  classical
  obtain ⟨v0, hv0⟩ : ∃ v, v ∈ S := by
    cases S with
    | nil => exact absurd rfl hne
    | cons a _ => exact ⟨a, by simp⟩
  let f : {x // x ∈ S} → {x // x ∈ S} := fun v =>
    ⟨(hpred v.1 v.2).choose, (hpred v.1 v.2).choose_spec.1⟩
  have hf : ∀ v : {x // x ∈ S}, Edge g (f v).1 v.1 := fun v =>
    (hpred v.1 v.2).choose_spec.2
  have hw : ∀ n : Nat, Edge g (f^[n + 1] ⟨v0, hv0⟩).1 (f^[n] ⟨v0, hv0⟩).1 := by
    intro n
    rw [Function.iterate_succ_apply']
    exact hf _
  have hchain : ∀ (d i : Nat), 1 ≤ d → ∃ p, List.Chain (Edge g)
      (f^[i + d] ⟨v0, hv0⟩).1 (p ++ [(f^[i] ⟨v0, hv0⟩).1]) := by
    intro d
    induction d with
    | zero => intro i h; exact absurd h (by simp)
    | succ d ih =>
        intro i _
        by_cases hd : 1 ≤ d
        · obtain ⟨p, hp⟩ := ih i hd
          refine ⟨(f^[i + d] ⟨v0, hv0⟩).1 :: p, ?_⟩
          rw [List.cons_append, List.chain_cons]
          exact ⟨hw (i + d), hp⟩
        · have hd0 : d = 0 := by omega
          subst hd0
          refine ⟨[], ?_⟩
          rw [List.nil_append, List.chain_singleton]
          exact hw i
  have hcard : S.toFinset.card < (Finset.range (S.length + 1)).card := by
    rw [Finset.card_range]
    exact Nat.lt_succ_of_le S.toFinset_card_le
  obtain ⟨i, hi, j, hj, hij, heq⟩ :=
    Finset.exists_ne_map_eq_of_card_lt_of_maps_to hcard
      (fun n _ => List.mem_toFinset.mpr (f^[n] ⟨v0, hv0⟩).2)
  rcases Nat.lt_or_ge i j with hlt | hge
  · obtain ⟨p, hp⟩ := hchain (j - i) i (by omega)
    rw [(by omega : i + (j - i) = j)] at hp
    rw [heq] at hp
    exact ⟨_, p, hp⟩
  · have hlt' : j < i := Nat.lt_of_le_of_ne hge (fun h => hij h.symm)
    obtain ⟨p, hp⟩ := hchain (i - j) j (by omega)
    rw [(by omega : j + (i - j) = i)] at hp
    rw [← heq] at hp
    exact ⟨_, p, hp⟩

theorem mapGet_decFold (ts : List String) (hnd : ts.Nodup) :
    ∀ (m0 : List (String × Int)) (v : String),
      mapGet (ts.foldl
        (fun (acc : List (String × Int)) succ =>
          match mapGet acc succ with
          | some d => mapSet acc succ (d - 1)
          | none => acc) m0) v =
      (mapGet m0 v).map (fun d => if v ∈ ts then d - 1 else d) := by
  induction ts with
  | nil =>
      intro m0 v
      cases hm : mapGet m0 v <;> simp [hm]
  | cons t rest ih =>
      intro m0 v
      rw [List.nodup_cons] at hnd
      rw [List.foldl_cons]
      have step : ∀ x : String, mapGet
          (match mapGet m0 t with
           | some d => mapSet m0 t (d - 1)
           | none => m0) x =
          if x = t then (mapGet m0 t).map (fun d => d - 1)
          else mapGet m0 x := by
        intro x
        by_cases hx : x = t
        · subst hx
          cases hm : mapGet m0 x with
          | none => simp [hm]
          | some d => simp [hm, mapGet_mapSet_self]
        · cases hm : mapGet m0 t with
          | none => simp [hm, hx]
          | some d => simp [hm, hx, mapGet_mapSet_ne _ _ _ _ hx]
      rw [ih hnd.2]
      by_cases hv : v = t
      · subst hv
        rw [step v]
        have hvr : v ∉ rest := hnd.1
        cases hm : mapGet m0 v <;> simp [hvr, if_pos rfl]
      · rw [step v, if_neg hv]
        cases hm : mapGet m0 v <;> simp [hv]

theorem adjTargets_nodup {g : DAGraph}
    (hadjnd : ∀ p ∈ g.adjacencyList, (p.2 : List String).Nodup)
    (u : String) : (adjTargets g u).Nodup := by
  unfold adjTargets
  cases hm : mapGet g.adjacencyList u with
  | none => simp
  | some ts =>
      simp only [Option.getD_some]
      exact hadjnd (u, ts) (mem_of_mapGet_eq_some hm)

theorem mapGet_kahnRemove {g : DAGraph} {m : List (String × Int)}
    {u : String} (hnd : (adjTargets g u).Nodup) (v : String) :
    mapGet (kahnRemove g m u) v =
      if v = u then none
      else (mapGet m v).map
        (fun d => if g.hasEdge u v then d - 1 else d) := by
  unfold kahnRemove
  rw [mapGet_decFold (adjTargets g u) hnd]
  by_cases hv : v = u
  · subst hv
    rw [mapGet_mapDelete_self]
    simp
  · rw [mapGet_mapDelete_ne _ _ _ hv]
    have : (v ∈ adjTargets g u) = (g.hasEdge u v = true) := by
      unfold DAGraph.hasEdge
      simp
    cases hm : mapGet m v with
    | none => simp [hv]
    | some d =>
        simp only [hv, if_neg, ite_false, Option.map_some, this]

theorem keys_decFold (ts : List String) :
    ∀ (m0 : List (String × Int)),
      ((ts.foldl
        (fun (acc : List (String × Int)) succ =>
          match mapGet acc succ with
          | some d => mapSet acc succ (d - 1)
          | none => acc) m0).map Prod.fst) = m0.map Prod.fst := by
  induction ts with
  | nil => intro m0; rfl
  | cons t rest ih =>
      intro m0
      rw [List.foldl_cons, ih]
      cases hm : mapGet m0 t with
      | none => rfl
      | some d =>
          exact keys_mapSet_of_hasKey m0 t (d - 1) (by simp [hasKey, hm])

theorem keys_kahnRemove (g : DAGraph) (m : List (String × Int)) (u : String) :
    (kahnRemove g m u).map Prod.fst =
      (m.map Prod.fst).filter (fun k => ¬ k = u) := by
  unfold kahnRemove
  rw [keys_decFold]
  unfold mapDelete
  exact keys_filter_map m (fun k => ¬ k = u)

theorem keys_layerFold (g : DAGraph) :
    ∀ (layer : List String) (m : List (String × Int)),
      ((layer.foldl (kahnRemove g) m).map Prod.fst) =
        (m.map Prod.fst).filter (fun k => ¬ k ∈ layer) := by
  intro layer
  induction layer with
  | nil =>
      intro m
      rw [List.foldl_nil]
      have h : ∀ k ∈ m.map Prod.fst,
        (decide (¬ k ∈ ([] : List String))) = true := by
        intro k _
        simp
      rw [List.filter_congr h, List.filter_true]
  | cons u rest ih =>
      intro m
      rw [List.foldl_cons, ih (kahnRemove g m u), keys_kahnRemove,
        List.filter_filter]
      refine List.filter_congr ?_
      intro k _
      by_cases h1 : k = u <;> by_cases h2 : k ∈ rest <;> simp [h1, h2]

theorem mapGet_layerFold {g : DAGraph}
    (hadjnd : ∀ p ∈ g.adjacencyList, (p.2 : List String).Nodup) :
    ∀ (layer : List String), layer.Nodup →
      ∀ (m : List (String × Int)) (v : String),
      mapGet (layer.foldl (kahnRemove g) m) v =
        if v ∈ layer then none
        else (mapGet m v).map
          (fun d => d -
            ((layer.filter (fun u => g.hasEdge u v)).length : Int)) := by
  intro layer
  induction layer with
  | nil =>
      intro _ m v
      rw [List.foldl_nil]
      cases hm : mapGet m v <;> simp [hm]
  | cons u rest ih =>
      intro hnd m v
      rw [List.nodup_cons] at hnd
      rw [List.foldl_cons, ih hnd.2 (kahnRemove g m u) v]
      by_cases hv : v ∈ rest
      · rw [if_pos hv, if_pos (List.mem_cons_of_mem _ hv)]
      · rw [if_neg hv]
        by_cases hvu : v = u
        · rw [if_pos (hvu ▸ List.mem_cons_self u rest)]
          rw [mapGet_kahnRemove (adjTargets_nodup hadjnd u) v, if_pos hvu]
          rfl
        · have hvm : v ∉ u :: rest := by
            intro h
            rcases List.mem_cons.mp h with h | h
            · exact hvu h
            · exact hv h
          rw [if_neg hvm]
          rw [mapGet_kahnRemove (adjTargets_nodup hadjnd u) v, if_neg hvu]
          cases hm : mapGet m v with
          | none => rfl
          | some d =>
              by_cases he : g.hasEdge u v
              · simp [he, List.filter_cons]
                ring
              · simp [he, List.filter_cons]

/-- The zero-degree layer, as a filtered copy of the key list: for
duplicate-free keys, filtering the entries and filtering the keys by
membership in the result agree. -/
theorem keys_filter_mem_layer (q : String × Int → Bool) :
    ∀ (m : List (String × Int)), (m.map Prod.fst).Nodup →
      (m.map Prod.fst).filter (fun k => k ∈ (m.filter q).map Prod.fst) =
        (m.filter q).map Prod.fst := by
  intro m
  induction m with
  | nil => intro _; rfl
  | cons p rest ih =>
      intro hnd
      rw [List.map_cons, List.nodup_cons] at hnd
      have hsub : ∀ k, k ∈ (rest.filter q).map Prod.fst →
          k ∈ rest.map Prod.fst := by
        intro k hk
        rcases List.mem_map.mp hk with ⟨e, he, hke⟩
        exact hke ▸ List.mem_map.mpr ⟨e, List.mem_of_mem_filter he, rfl⟩
      by_cases hq : q p
      · rw [List.filter_cons_of_pos hq, List.map_cons, List.map_cons,
          List.filter_cons_of_pos (by simp)]
        congr 1
        have hcg : ∀ k ∈ rest.map Prod.fst,
            (decide (k ∈ p.1 :: (rest.filter q).map Prod.fst)) =
              (decide (k ∈ (rest.filter q).map Prod.fst)) := by
          intro k hk
          have hkp : ¬ k = p.1 := fun h => hnd.1 (h ▸ hk)
          simp [List.mem_cons, hkp]
        rw [List.filter_congr hcg, ih hnd.2]
      · rw [List.filter_cons_of_neg hq, List.map_cons]
        have hp1 : ¬ p.1 ∈ (rest.filter q).map Prod.fst :=
          fun h => hnd.1 (hsub p.1 h)
        rw [List.filter_cons_of_neg (by simpa using hp1)]
        have hcg : ∀ k ∈ rest.map Prod.fst,
            (decide (k ∈ (rest.filter q).map Prod.fst)) =
              (decide (k ∈ (rest.filter q).map Prod.fst)) :=
          fun k _ => rfl
        rw [ih hnd.2]

/-- The layer index of a node: position of the first layer containing
it. -/
def layerIdx (L : List (List String)) (x : String) : Nat :=
  L.findIdx (fun layer => x ∈ layer)

theorem edge_iff_hasEdge {g : DAGraph} {a b : String} :
    Edge g a b ↔ g.hasEdge a b = true := by
  unfold Edge DAGraph.hasEdge
  simp

theorem layerIdx_cons_mem {L : List (List String)} {layer : List String}
    {x : String} (h : x ∈ layer) : layerIdx (layer :: L) x = 0 := by
  unfold layerIdx
  rw [List.findIdx_cons]
  simp [h]

theorem layerIdx_cons_not_mem {L : List (List String)} {layer : List String}
    {x : String} (h : x ∉ layer) :
    layerIdx (layer :: L) x = layerIdx L x + 1 := by
  unfold layerIdx
  rw [List.findIdx_cons]
  simp [h]

theorem kahnLoop_spec {g : DAGraph} (hacyc : ¬ HasCycleProp g)
    (hadjnd : ∀ p ∈ g.adjacencyList, (p.2 : List String).Nodup) :
    ∀ (fuel : Nat) (m : List (String × Int)), m.length < fuel →
      (m.map Prod.fst).Nodup →
      (∀ p ∈ m, p.2 = predCountIn g (m.map Prod.fst) p.1) →
      ∃ L, kahnLoop g fuel m = .ok L ∧
        L.flatten.Nodup ∧
        (∀ x, x ∈ L.flatten ↔ x ∈ m.map Prod.fst) ∧
        (∀ a b, Edge g a b → a ∈ m.map Prod.fst → b ∈ m.map Prod.fst →
          layerIdx L a < layerIdx L b) := by
  intro fuel
  induction fuel with
  | zero =>
      intro m h
      exact absurd h (Nat.not_lt_zero _)
  | succ fuel ih =>
      intro m hlen hnd hcons
      by_cases hm : m.isEmpty
      · have hme : m = [] := List.isEmpty_iff.mp hm
        refine ⟨[], ?_, by simp, ?_, ?_⟩
        · rw [kahnLoop, if_pos hm]
        · intro x
          simp [hme]
        · intro a b _ ha _
          rw [hme] at ha
          simp at ha
      · have hmne : m ≠ [] := fun h => hm (by simp [h])
        have hmE : m.isEmpty = false := Bool.eq_false_iff.mpr
          (fun h => hm h)
        -- the zero-degree layer
        have hlayer_sub : ∀ x ∈ (m.filter (fun p => p.2 = 0)).map Prod.fst,
            x ∈ m.map Prod.fst := by
          intro x hx
          rcases List.mem_map.mp hx with ⟨e, he, hxe⟩
          exact hxe ▸ List.mem_map.mpr ⟨e, List.mem_of_mem_filter he, rfl⟩
        have hlayer_nd : ((m.filter (fun p => p.2 = 0)).map Prod.fst).Nodup :=
          ((List.filter_sublist m).map Prod.fst).nodup hnd
        -- membership in the layer means recorded degree zero
        have hlayer_mem : ∀ b, b ∈ (m.filter (fun p => p.2 = 0)).map Prod.fst →
            ∃ d, (b, d) ∈ m ∧ d = 0 := by
          intro b hb
          rcases List.mem_map.mp hb with ⟨e, he, hbe⟩
          rw [List.mem_filter] at he
          refine ⟨e.2, ?_, by simpa using he.2⟩
          rw [← hbe]
          exact he.1
        -- a node with an in-layer-free predecessor set is not in the layer
        have hnot_layer : ∀ a b, Edge g a b → a ∈ m.map Prod.fst →
            b ∉ (m.filter (fun p => p.2 = 0)).map Prod.fst := by
          intro a b he ha hb
          obtain ⟨d, hdm, hd0⟩ := hlayer_mem b hb
          have hconsb : d = predCountIn g (m.map Prod.fst) b :=
            hcons (b, d) hdm
          rw [hd0] at hconsb
          have hlen0 : ((m.map Prod.fst).filter
              (fun u => g.hasEdge u b)).length = 0 := by
            unfold predCountIn at hconsb
            omega
          have hmem : a ∈ (m.map Prod.fst).filter
              (fun u => g.hasEdge u b) :=
            List.mem_filter.mpr ⟨ha, edge_iff_hasEdge.mp he⟩
          rw [List.length_eq_zero] at hlen0
          rw [hlen0] at hmem
          simp at hmem
        -- the layer is nonempty, else a cycle exists
        have hlayerE : ((m.filter (fun p => p.2 = 0)).map Prod.fst).isEmpty
            = false := by
          rw [Bool.eq_false_iff]
          intro hempty
          have hnil : (m.filter (fun p => p.2 = 0)).map Prod.fst = [] :=
            List.isEmpty_iff.mp hempty
          refine hacyc (cycle_of_all_have_preds
            (S := m.map Prod.fst) (by simpa using hmne) ?_)
          intro v hv
          rcases List.mem_map.mp hv with ⟨e, he, hve⟩
          have hcon : e.2 = predCountIn g (m.map Prod.fst) e.1 := hcons e he
          have hne0 : ¬ e.2 = 0 := by
            intro h0
            have : e.1 ∈ (m.filter (fun p => p.2 = 0)).map Prod.fst :=
              List.mem_map.mpr ⟨e, List.mem_filter.mpr ⟨he, by simp [h0]⟩, rfl⟩
            rw [hnil] at this
            simp at this
          have hpos : 0 < ((m.map Prod.fst).filter
              (fun u => g.hasEdge u e.1)).length := by
            unfold predCountIn at hcon
            omega
          obtain ⟨u, hu⟩ := List.exists_mem_of_length_pos hpos
          rw [List.mem_filter] at hu
          exact ⟨u, hve ▸ ⟨hu.1, edge_iff_hasEdge.mpr hu.2⟩⟩
        -- the new in-degree map after removing the layer
        have hkeys1 : (((m.filter (fun p => p.2 = 0)).map Prod.fst).foldl
            (kahnRemove g) m).map Prod.fst =
            (m.map Prod.fst).filter
              (fun k => ¬ k ∈ (m.filter (fun p => p.2 = 0)).map Prod.fst) :=
          keys_layerFold g _ m
        have hnd1 : ((((m.filter (fun p => p.2 = 0)).map Prod.fst).foldl
            (kahnRemove g) m).map Prod.fst).Nodup := by
          rw [hkeys1]
          exact hnd.filter _
        have hlen1 : (((m.filter (fun p => p.2 = 0)).map Prod.fst).foldl
            (kahnRemove g) m).length < fuel := by
          have hlne : (m.filter (fun p => p.2 = 0)).map Prod.fst ≠ [] := by
            intro h
            rw [h] at hlayerE
            simp at hlayerE
          obtain ⟨x0, hx0⟩ := List.exists_mem_of_length_pos
            (List.length_pos.mpr hlne)
          have h2 : ((m.map Prod.fst).filter
              (fun k => ¬ k ∈ (m.filter (fun p => p.2 = 0)).map
                Prod.fst)).length < (m.map Prod.fst).length := by
            rw [List.length_filter_lt_length_iff_exists]
            exact ⟨x0, hlayer_sub x0 hx0, by simp [hx0]⟩
          have h3 : (((m.filter (fun p => p.2 = 0)).map Prod.fst).foldl
              (kahnRemove g) m).length =
              ((((m.filter (fun p => p.2 = 0)).map Prod.fst).foldl
                (kahnRemove g) m).map Prod.fst).length :=
            (List.length_map _ _).symm
          rw [h3, hkeys1]
          have h4 : (m.map Prod.fst).length = m.length := List.length_map _ _
          omega
        have hcons1 : ∀ p ∈ ((m.filter (fun p => p.2 = 0)).map Prod.fst).foldl
            (kahnRemove g) m, p.2 = predCountIn g
              ((((m.filter (fun q => q.2 = 0)).map Prod.fst).foldl
                (kahnRemove g) m).map Prod.fst) p.1 := by
          intro p hp
          have hget := mapGet_eq_some_of_mem hnd1 hp
          rw [mapGet_layerFold hadjnd _ hlayer_nd m p.1] at hget
          by_cases hpl : p.1 ∈ (m.filter (fun q => q.2 = 0)).map Prod.fst
          · rw [if_pos hpl] at hget
            exact absurd hget (by simp)
          · rw [if_neg hpl] at hget
            cases hg : mapGet m p.1 with
            | none =>
                rw [hg] at hget
                simp at hget
            | some d0 =>
                rw [hg] at hget
                have hval : d0 - ((((m.filter (fun q => q.2 = 0)).map
                    Prod.fst).filter (fun u => g.hasEdge u p.1)).length
                      : Int) = p.2 := by
                  simpa using hget
                have hd0 : d0 = predCountIn g (m.map Prod.fst) p.1 :=
                  hcons (p.1, d0) (mem_of_mapGet_eq_some hg)
                -- partition the predecessor count by layer membership
                have hpart := length_filter_partition (m.map Prod.fst)
                  (fun u => g.hasEdge u p.1)
                  (fun k => k ∈ (m.filter (fun q => q.2 = 0)).map Prod.fst)
                have hQlayer : (m.map Prod.fst).filter
                    (fun k => k ∈ (m.filter (fun q => q.2 = 0)).map
                      Prod.fst) = (m.filter (fun q => q.2 = 0)).map
                        Prod.fst :=
                  keys_filter_mem_layer _ m hnd
                have hQneg : (m.map Prod.fst).filter
                    (fun x => ! (x ∈ (m.filter (fun q => q.2 = 0)).map
                      Prod.fst : Bool)) = (m.map Prod.fst).filter
                    (fun k => ¬ k ∈ (m.filter (fun q => q.2 = 0)).map
                      Prod.fst) := by
                  refine List.filter_congr ?_
                  intro k _
                  simp
                rw [hQlayer, hQneg] at hpart
                rw [hkeys1]
                unfold predCountIn at hd0 ⊢
                omega
        obtain ⟨L', hok', hnodup', hiff', hord'⟩ := ih
          (((m.filter (fun p => p.2 = 0)).map Prod.fst).foldl
            (kahnRemove g) m) hlen1 hnd1 hcons1
        refine ⟨((m.filter (fun p => p.2 = 0)).map Prod.fst) :: L',
          ?_, ?_, ?_, ?_⟩
        · rw [kahnLoop, if_neg (by rw [hmE]; exact Bool.false_ne_true)]
          simp only [hlayerE, Bool.false_eq_true, if_neg, ite_false, hok']
        · rw [List.flatten_cons, List.nodup_append]
          refine ⟨hlayer_nd, hnodup', ?_⟩
          intro x hx hx'
          have := (hiff' x).mp hx'
          rw [hkeys1, List.mem_filter] at this
          simp [hx] at this
        · intro x
          rw [List.flatten_cons, List.mem_append]
          constructor
          · intro h
            rcases h with h | h
            · exact hlayer_sub x h
            · have := (hiff' x).mp h
              rw [hkeys1, List.mem_filter] at this
              exact this.1
          · intro h
            by_cases hxl : x ∈ (m.filter (fun p => p.2 = 0)).map Prod.fst
            · exact Or.inl hxl
            · refine Or.inr ((hiff' x).mpr ?_)
              rw [hkeys1, List.mem_filter]
              exact ⟨h, by simpa using hxl⟩
        · intro a b he ha hb
          have hbl : b ∉ (m.filter (fun p => p.2 = 0)).map Prod.fst :=
            hnot_layer a b he ha
          have hb1 : b ∈ ((((m.filter (fun p => p.2 = 0)).map Prod.fst).foldl
              (kahnRemove g) m).map Prod.fst) := by
            rw [hkeys1, List.mem_filter]
            exact ⟨hb, by simpa using hbl⟩
          by_cases hal : a ∈ (m.filter (fun p => p.2 = 0)).map Prod.fst
          · rw [layerIdx_cons_mem hal, layerIdx_cons_not_mem hbl]
            exact Nat.succ_pos _
          · have ha1 : a ∈ ((((m.filter (fun p => p.2 = 0)).map
                Prod.fst).foldl (kahnRemove g) m).map Prod.fst) := by
              rw [hkeys1, List.mem_filter]
              exact ⟨ha, by simpa using hal⟩
            rw [layerIdx_cons_not_mem hal, layerIdx_cons_not_mem hbl]
            exact Nat.succ_lt_succ (hord' a b he ha1 hb1)

/-- The target of any edge is listed among the nodes (well-formedness). -/
theorem edge_target_mem_nodes {g : DAGraph} {a b : String}
    (hadj : ∀ p ∈ g.adjacencyList, (p.2 : List String).Nodup ∧
      ∀ t ∈ p.2, t ∈ nodeIds g)
    (h : Edge g a b) : b ∈ nodeIds g := by
  unfold Edge adjTargets at h
  cases hm : mapGet g.adjacencyList a with
  | none => rw [hm] at h; simp at h
  | some ts =>
      rw [hm] at h
      simp only [Option.getD_some] at h
      exact (hadj (a, ts) (mem_of_mapGet_eq_some hm)).2 b h

/-- A passed cycle check certifies acyclicity (uses completeness). -/
theorem acyclic_of_hasCycle_eq_false {g : DAGraph}
    (hkeys : ∀ a ∈ g.adjacencyList.map Prod.fst, a ∈ nodeIds g)
    (h : g.hasCycle = false) : ¬ HasCycleProp g := by
  intro hc
  rw [hasCycle_complete hkeys hc] at h
  exact Bool.true_eq_false.mp h

/-- C3: on every well-formed acyclic graph, `topologicalSort()` succeeds
with layers whose concatenation lists every node exactly once, and for
every edge `(a,b)` the index of the layer containing `a` is strictly
below the index of the layer containing `b`. -/
theorem topologicalSort_correct (g : DAGraph) (hwf : g.WF)
    (hacyc : ¬ HasCycleProp g) :
    ∃ L, g.topologicalSort = .ok L ∧ L.flatten.Nodup ∧
      (∀ x, x ∈ L.flatten ↔ x ∈ nodeIds g) ∧
      (∀ x ∈ nodeIds g, L.flatten.count x = 1) ∧
      (∀ a b, Edge g a b → layerIdx L a < layerIdx L b) := by
  obtain ⟨hnd, hadjk, hdegk, hadj, hdeg⟩ := hwf
  have hfalse : g.hasCycle = false := hasCycle_eq_false_of_acyclic hacyc
  have hconsm : ∀ p ∈ g.inDegree,
      p.2 = predCountIn g (g.inDegree.map Prod.fst) p.1 := by
    intro p hp
    have h1 := hdeg p hp
    unfold predCount at h1
    rw [hdegk, ← hadjk]
    exact h1
  obtain ⟨L, hok, hnodup, hiff, hord⟩ := kahnLoop_spec hacyc
    (fun p hp => (hadj p hp).1) (g.inDegree.length + 1) g.inDegree
    (Nat.lt_succ_self _) (hdegk ▸ hnd) hconsm
  refine ⟨L, ?_, hnodup, ?_, ?_, ?_⟩
  · unfold DAGraph.topologicalSort
    rw [if_neg (by rw [hfalse]; exact Bool.false_ne_true), hok]
  · intro x
    rw [hiff x, hdegk]
  · intro x hx
    exact List.count_eq_one_of_mem hnodup
      ((hiff x).mpr (by rw [hdegk]; exact hx))
  · intro a b he
    have ha : a ∈ g.inDegree.map Prod.fst := by
      rw [hdegk, ← hadjk]
      exact edge_source_mem_adj_keys he
    have hb : b ∈ g.inDegree.map Prod.fst := by
      rw [hdegk]
      exact edge_target_mem_nodes hadj he
    exact hord a b he ha hb

/-- The diamond `A → {B, C} → D` (spec Scenario A). -/
def diamondSetup : DAGraph :=
  ⟨[("A", []), ("B", ["A"]), ("C", ["A"]), ("D", ["B", "C"])],
   [("A", ["B", "C"]), ("B", ["D"]), ("C", ["D"]), ("D", [])],
   [("A", 0), ("B", 1), ("C", 1), ("D", 2)]⟩

/-- C3 witness: the diamond is well-formed and acyclic, and the theorem
applies to it. -/
theorem topologicalSort_correct_witness :
    ∃ L, diamondSetup.topologicalSort = .ok L ∧ L.flatten.Nodup ∧
      (∀ x, x ∈ L.flatten ↔ x ∈ nodeIds diamondSetup) ∧
      (∀ x ∈ nodeIds diamondSetup, L.flatten.count x = 1) ∧
      (∀ a b, Edge diamondSetup a b → layerIdx L a < layerIdx L b) :=
  topologicalSort_correct diamondSetup (by decide)
    (acyclic_of_hasCycle_eq_false (by decide) (by decide))

/-! ## removeNode preserves well-formedness (markCompleted's graph step) -/

theorem mapGet_decGuardFold (ts : List String) (hnd : ts.Nodup) :
    ∀ (m0 : List (String × Int)) (v : String),
      mapGet (ts.foldl
        (fun (m : List (String × Int)) succ =>
          match mapGet m succ with
          | some d => if d > 0 then mapSet m succ (d - 1) else m
          | none => m) m0) v =
      (mapGet m0 v).map
        (fun d => if v ∈ ts then (if d > 0 then d - 1 else d) else d) := by
  induction ts with
  | nil =>
      intro m0 v
      cases hm : mapGet m0 v <;> simp [hm]
  | cons t rest ih =>
      intro m0 v
      rw [List.nodup_cons] at hnd
      rw [List.foldl_cons]
      have step : ∀ x : String, mapGet
          (match mapGet m0 t with
           | some d => if d > 0 then mapSet m0 t (d - 1) else m0
           | none => m0) x =
          if x = t then
            (mapGet m0 t).map (fun d => if d > 0 then d - 1 else d)
          else mapGet m0 x := by
        intro x
        by_cases hx : x = t
        · subst hx
          cases hm : mapGet m0 x with
          | none => simp [hm]
          | some d =>
              by_cases hd : d > 0
              · simp [hm, hd, mapGet_mapSet_self]
              · simp [hm, hd]
        · cases hm : mapGet m0 t with
          | none => simp [hm, hx]
          | some d =>
              by_cases hd : d > 0
              · simp [hm, hd, hx, mapGet_mapSet_ne _ _ _ _ hx]
              · simp [hm, hd, hx]
      rw [ih hnd.2]
      by_cases hv : v = t
      · subst hv
        rw [step v]
        have hvr : v ∉ rest := hnd.1
        cases hm : mapGet m0 v <;> simp [hvr, hm]
      · rw [step v, if_neg hv]
        cases hm : mapGet m0 v <;> simp [hv, hm]

theorem keys_decGuardFold (ts : List String) :
    ∀ (m0 : List (String × Int)),
      ((ts.foldl
        (fun (m : List (String × Int)) succ =>
          match mapGet m succ with
          | some d => if d > 0 then mapSet m succ (d - 1) else m
          | none => m) m0).map Prod.fst) = m0.map Prod.fst := by
  induction ts with
  | nil => intro m0; rfl
  | cons t rest ih =>
      intro m0
      rw [List.foldl_cons, ih]
      cases hm : mapGet m0 t with
      | none => rfl
      | some d =>
          by_cases hd : d > 0
          · simp only [hm, hd, if_pos]
            exact keys_mapSet_of_hasKey m0 t (d - 1) (by simp [hasKey, hm])
          · simp [hm, hd]

theorem mapGet_map_values {β : Type} (f : List String → β)
    (m : List (String × List String)) (k : String) :
    mapGet (m.map (fun p => (p.1, f p.2))) k = (mapGet m k).map f := by
  induction m with
  | nil => rfl
  | cons p rest ih =>
      by_cases h : p.1 = k
      · simp [mapGet, h]
      · simp [mapGet, h, ih]

theorem filter_eq_singleton {l : List String} {x : String} (hnd : l.Nodup)
    (hx : x ∈ l) : l.filter (fun k => k = x) = [x] := by
  induction l with
  | nil => simp at hx
  | cons a rest ih =>
      rw [List.nodup_cons] at hnd
      rcases List.mem_cons.mp hx with h | h
      · rw [List.filter_cons_of_pos (by simp [h])]
        have hrest : rest.filter (fun k => k = x) = [] := by
          rw [List.filter_eq_nil_iff]
          intro b hb
          simp only [decide_eq_true_eq]
          intro hbx
          exact hnd.1 ((hbx.trans h) ▸ hb)
        rw [hrest, h]
      · have hax : ¬ a = x := fun hh => hnd.1 (hh ▸ h)
        rw [List.filter_cons_of_neg (by simpa using hax)]
        exact ih hnd.2 h

/-- A node id present in the graph is among the node ids. -/
theorem mem_nodeIds_of_hasKey {g : DAGraph} {x : String}
    (h : hasKey g.nodes x = true) : x ∈ nodeIds g := by
  unfold hasKey at h
  cases hm : mapGet g.nodes x with
  | none => rw [hm] at h; simp at h
  | some d => exact mem_keys_of_mapGet_eq_some hm

theorem keys_mapDelete {β : Type} (m : List (String × β)) (k : String) :
    (mapDelete m k).map Prod.fst =
      (m.map Prod.fst).filter (fun s => ¬ s = k) :=
  keys_filter_map m (fun s => ¬ s = k)

theorem keys_map_values (f : List String → List String)
    (m : List (String × List String)) :
    (m.map (fun p => (p.1, f p.2))).map Prod.fst = m.map Prod.fst := by
  induction m with
  | nil => rfl
  | cons p rest ih => simp [ih]

theorem removeNode_eq {g : DAGraph} {x : String}
    (hk : hasKey g.nodes x = true) :
    g.removeNode x =
      { nodes := mapDelete g.nodes x,
        adjacencyList := mapDelete (g.adjacencyList.map
          (fun p => (p.1, p.2.filter (· ≠ x)))) x,
        inDegree := mapDelete ((adjTargets g x).foldl
          (fun (m : List (String × Int)) succ =>
            match mapGet m succ with
            | some d => if d > 0 then mapSet m succ (d - 1) else m
            | none => m) g.inDegree) x } := by
  unfold DAGraph.removeNode
  rw [if_neg (by simpa using hk)]

theorem removeNode_absent {g : DAGraph} {x : String}
    (hk : ¬ hasKey g.nodes x = true) : g.removeNode x = g := by
  unfold DAGraph.removeNode
  rw [if_pos (by simpa using hk)]

/-- Successor sets after `removeNode`: for any other node, the original
set with the removed id filtered out. -/
theorem adjTargets_removeNode {g : DAGraph} {x u : String}
    (hk : hasKey g.nodes x = true) (hux : ¬ u = x) :
    adjTargets (g.removeNode x) u = (adjTargets g u).filter (· ≠ x) := by
  rw [removeNode_eq hk]
  unfold adjTargets
  rw [mapGet_mapDelete_ne _ _ _ hux, mapGet_map_values]
  cases hm : mapGet g.adjacencyList u <;> simp

theorem hasEdge_removeNode {g : DAGraph} {x u v : String}
    (hk : hasKey g.nodes x = true) (hux : ¬ u = x) (hvx : ¬ v = x) :
    (g.removeNode x).hasEdge u v = g.hasEdge u v := by
  unfold DAGraph.hasEdge
  rw [adjTargets_removeNode hk hux]
  by_cases hv : v ∈ adjTargets g u
  · simp [List.mem_filter, hv, hvx]
  · simp [List.mem_filter, hv]

theorem removeNode_WF {g : DAGraph} (hwf : g.WF) (x : String) :
    (g.removeNode x).WF := by
  by_cases hk : hasKey g.nodes x
  · obtain ⟨hnd, hadjk, hdegk, hadj, hdeg⟩ := hwf
    have hxmem : x ∈ nodeIds g := mem_nodeIds_of_hasKey hk
    have hts_nd : (adjTargets g x).Nodup :=
      adjTargets_nodup (fun p hp => (hadj p hp).1) x
    have hkeys_nodes : nodeIds (g.removeNode x) =
        (nodeIds g).filter (fun s => ¬ s = x) := by
      rw [removeNode_eq hk]
      exact keys_mapDelete g.nodes x
    have hkeys_adj : (g.removeNode x).adjacencyList.map Prod.fst =
        (nodeIds g).filter (fun s => ¬ s = x) := by
      rw [removeNode_eq hk]
      show (mapDelete (g.adjacencyList.map
        (fun p => (p.1, p.2.filter (· ≠ x)))) x).map Prod.fst = _
      rw [keys_mapDelete, keys_map_values, hadjk]
    have hkeys_deg : (g.removeNode x).inDegree.map Prod.fst =
        (nodeIds g).filter (fun s => ¬ s = x) := by
      rw [removeNode_eq hk]
      show (mapDelete ((adjTargets g x).foldl _ g.inDegree) x).map
        Prod.fst = _
      rw [keys_mapDelete, keys_decGuardFold, hdegk]
    refine ⟨?_, ?_, ?_, ?_, ?_⟩
    · rw [hkeys_nodes]
      exact hnd.filter _
    · rw [hkeys_adj, hkeys_nodes]
    · rw [hkeys_deg, hkeys_nodes]
    · intro p hp
      rw [removeNode_eq hk] at hp
      have hp1 := List.mem_of_mem_filter hp
      rcases List.mem_map.mp hp1 with ⟨q, hq, hpq⟩
      obtain ⟨hqnd, hqtars⟩ := hadj q hq
      constructor
      · rw [← hpq]
        exact hqnd.filter _
      · intro t ht
        rw [← hpq] at ht
        simp only at ht
        have ht' := List.mem_of_mem_filter ht
        have htx : t ≠ x := by
          have := List.of_mem_filter ht
          simpa using this
        rw [hkeys_nodes, List.mem_filter]
        exact ⟨hqtars t ht', by simpa using htx⟩
    · intro p hp
      rw [removeNode_eq hk] at hp
      have hpx : ¬ p.1 = x := by
        have := List.of_mem_filter hp
        simpa using this
      have hp1 := List.mem_of_mem_filter hp
      have hnd1 : (((adjTargets g x).foldl
          (fun (m : List (String × Int)) succ =>
            match mapGet m succ with
            | some d => if d > 0 then mapSet m succ (d - 1) else m
            | none => m) g.inDegree).map Prod.fst).Nodup := by
        rw [keys_decGuardFold, hdegk]
        exact hnd
      have hget := mapGet_eq_some_of_mem hnd1 hp1
      rw [mapGet_decGuardFold (adjTargets g x) hts_nd g.inDegree p.1]
        at hget
      cases hg : mapGet g.inDegree p.1 with
      | none => rw [hg] at hget; simp at hget
      | some d =>
          rw [hg] at hget
          simp only [Option.map_some'] at hget
          have hd : d = predCount g p.1 :=
            hdeg (p.1, d) (mem_of_mapGet_eq_some hg)
          have hval : (if p.1 ∈ adjTargets g x then
              (if d > 0 then d - 1 else d) else d) = p.2 := by
            injection hget
          -- rewrite the new predecessor count
          have hcount : predCount (g.removeNode x) p.1 =
              ((((nodeIds g).filter (fun s => ¬ s = x)).filter
                (fun u => g.hasEdge u p.1)).length : Int) := by
            unfold predCount predCountIn
            rw [hkeys_adj]
            congr 1
            refine congrArg List.length (List.filter_congr ?_)
            intro u hu
            have hux : ¬ u = x := by
              have := List.of_mem_filter hu
              simpa using this
            rw [hasEdge_removeNode hk hux hpx]
          have hpart := length_filter_partition (nodeIds g)
            (fun u => g.hasEdge u p.1) (fun u => u = x)
          have hsing : (nodeIds g).filter (fun u => u = x) = [x] :=
            filter_eq_singleton hnd hxmem
          have hnegQ : (nodeIds g).filter (fun u => ! (u = x : Bool)) =
              (nodeIds g).filter (fun s => ¬ s = x) := by
            refine List.filter_congr ?_
            intro k _
            simp
          rw [hsing, hnegQ] at hpart
          have hxedge : (p.1 ∈ adjTargets g x) ↔ g.hasEdge x p.1 = true := by
            unfold DAGraph.hasEdge
            simp
          unfold predCount predCountIn at hd
          rw [hadjk] at hd
          by_cases hmem : p.1 ∈ adjTargets g x
          · have hE : g.hasEdge x p.1 = true := hxedge.mp hmem
            have hone : (([x].filter
                (fun u => g.hasEdge u p.1)).length) = 1 := by
              simp [List.filter_cons, hE]
            have hdpos : d > 0 := by
              rw [hd]
              have : 0 < ((nodeIds g).filter
                  (fun u => g.hasEdge u p.1)).length := by
                omega
              exact_mod_cast this
            rw [if_pos hmem, if_pos hdpos] at hval
            rw [hcount, ← hval, hd]
            rw [hone] at hpart
            omega
          · have hE : ¬ g.hasEdge x p.1 = true := fun h => hmem (hxedge.mpr h)
            have hzero : (([x].filter
                (fun u => g.hasEdge u p.1)).length) = 0 := by
              simp [List.filter_cons, hE]
            rw [if_neg hmem] at hval
            rw [hcount, ← hval, hd]
            rw [hzero] at hpart
            omega
  · rw [removeNode_absent hk]
    exact hwf

/-! ## A failed dependency blocks its dependents forever (C5)

Lifecycle transitions of the scheduler, as an explicit operation type:
only `markCompleted` ever touches the graph. -/

inductive SchedulerOp where
  | markCompleted (id : String)
  | markFailed (id : String)
  | markRetrying (id : String)
  | markExecuting (id : String)
deriving DecidableEq, Repr

def applyOp (s : TaskScheduler) : SchedulerOp → TaskScheduler
  | .markCompleted id => s.markCompleted id
  | .markFailed id => s.markFailed id
  | .markRetrying id => s.markRetrying id
  | .markExecuting id => s.markExecuting id

def applyOps (s : TaskScheduler) (ops : List SchedulerOp) : TaskScheduler :=
  ops.foldl applyOp s

theorem mem_setAdd_of_mem {l : List String} {a b : String} (h : a ∈ l) :
    a ∈ setAdd l b := by
  unfold setAdd
  by_cases hb : b ∈ l
  · rw [if_pos hb]; exact h
  · rw [if_neg hb]; exact List.mem_append_left _ h

theorem mem_setAdd_self (l : List String) (b : String) : b ∈ setAdd l b := by
  unfold setAdd
  by_cases hb : b ∈ l
  · rw [if_pos hb]; exact hb
  · rw [if_neg hb]; exact List.mem_append_right _ (by simp)

theorem idConsistent_statusSet {tm : List (String × Task)}
    (hid : ∀ p ∈ tm, (p.2 : Task).id = p.1) (id : String) (st : TaskStatus) :
    ∀ p ∈ (match mapGet tm id with
      | some task => mapSet tm id { task with status := st }
      | none => tm), (p.2 : Task).id = p.1 := by
  cases hm : mapGet tm id with
  | none => exact hid
  | some task =>
      intro p hp
      rcases mem_mapSet hp with h | h
      · rw [h]
        exact hid (id, task) (mem_of_mapGet_eq_some hm)
      · exact hid p h

/-- Invariant: the graph stays well-formed, stored tasks keep their key
as id, and the dependent either completed or still has the failed
predecessor's edge pointing at it. -/
def BlockedInv (t dep : String) (s : TaskScheduler) : Prop :=
  s.graph.WF ∧ (∀ p ∈ s.taskMap, (p.2 : Task).id = p.1) ∧
  (dep ∈ s.completedTasks ∨ s.graph.hasEdge t dep = true)

theorem applyOp_blockedInv {t dep : String} (op : SchedulerOp)
    (hop : op ≠ SchedulerOp.markCompleted t) (s : TaskScheduler)
    (h : BlockedInv t dep s) : BlockedInv t dep (applyOp s op) := by
  obtain ⟨hwf, hid, hor⟩ := h
  cases op with
  | markCompleted x =>
      have hxt : ¬ x = t := fun hh => hop (by rw [hh])
      refine ⟨removeNode_WF hwf x, ?_, ?_⟩
      · exact idConsistent_statusSet hid x TaskStatus.completed
      · rcases hor with hc | he
        · exact Or.inl (mem_setAdd_of_mem hc)
        · by_cases hxd : x = dep
          · subst hxd
            exact Or.inl (mem_setAdd_self _ _)
          · refine Or.inr ?_
            show (s.graph.removeNode x).hasEdge t dep = true
            by_cases hk : hasKey s.graph.nodes x
            · rw [hasEdge_removeNode hk
                (fun hh => hxt hh.symm) (fun hh => hxd hh.symm)]
              exact he
            · rw [removeNode_absent hk]
              exact he
  | markFailed x =>
      exact ⟨hwf, idConsistent_statusSet hid x TaskStatus.failed, hor⟩
  | markRetrying x =>
      exact ⟨hwf, idConsistent_statusSet hid x TaskStatus.retrying, hor⟩
  | markExecuting x =>
      exact ⟨hwf, idConsistent_statusSet hid x TaskStatus.executing, hor⟩

theorem applyOps_blockedInv {t dep : String} :
    ∀ (ops : List SchedulerOp) (s : TaskScheduler), BlockedInv t dep s →
      SchedulerOp.markCompleted t ∉ ops →
      BlockedInv t dep (applyOps s ops) := by
  intro ops
  induction ops with
  | nil => exact fun s h _ => h
  | cons op rest ih =>
      intro s h hops
      have hop : op ≠ SchedulerOp.markCompleted t :=
        fun hh => hops (hh ▸ List.mem_cons_self _ _)
      have hrest : SchedulerOp.markCompleted t ∉ rest :=
        fun hh => hops (List.mem_cons_of_mem _ hh)
      exact ih (applyOp s op) (applyOp_blockedInv op hop s h) hrest

/-- C5: if the scheduler's graph records the edge `t → dep` (the task
`dep` declares the never-completed `t` among its dependencies), then
after any sequence of lifecycle transitions that never marks `t`
completed — in particular after `markFailed(t)` — no task with id `dep`
is ever returned by `getNextExecutableTasks()`. -/
theorem failed_dependency_never_executable (s : TaskScheduler)
    (t dep : String) (ops : List SchedulerOp) (hwf : s.graph.WF)
    (hid : ∀ p ∈ s.taskMap, (p.2 : Task).id = p.1)
    (hedge : s.graph.hasEdge t dep = true)
    (hops : SchedulerOp.markCompleted t ∉ ops) :
    ∀ tk ∈ (applyOps s ops).getNextExecutableTasks, tk.id ≠ dep := by
  obtain ⟨hwf', hid', hor⟩ :=
    applyOps_blockedInv ops s ⟨hwf, hid, Or.inr hedge⟩ hops
  intro tk hmem hdep
  obtain ⟨nodeId, hzero, hnc, hnf, hget, hst⟩ :=
    mem_getNextExecutableTasks hmem
  have hid1 : tk.id = nodeId := hid' (nodeId, tk) (mem_of_mapGet_eq_some hget)
  have hnd : nodeId = dep := hid1.symm.trans hdep
  subst hnd
  rcases hor with hc | he
  · exact hnc (hdep ▸ hc)
  · obtain ⟨hgnd, hadjk, hdegk, hadj, hdeg⟩ := hwf'
    unfold DAGraph.getZeroInDegreeNodes at hzero
    rcases List.mem_map.mp hzero with ⟨p, hp, hp1⟩
    rw [List.mem_filter] at hp
    have hdeg0 : p.2 = 0 := by simpa using hp.2
    have hcons : p.2 = predCount (applyOps s ops).graph p.1 :=
      hdeg p hp.1
    have hts : t ∈ (applyOps s ops).graph.adjacencyList.map Prod.fst :=
      edge_source_mem_adj_keys (edge_iff_hasEdge.mpr he)
    have htmem : t ∈ ((applyOps s ops).graph.adjacencyList.map
        Prod.fst).filter (fun u => (applyOps s ops).graph.hasEdge u p.1) :=
      List.mem_filter.mpr ⟨hts, by rw [hp1]; exact he⟩
    unfold predCount predCountIn at hcons
    rw [hdeg0] at hcons
    have hlen0 : (((applyOps s ops).graph.adjacencyList.map
        Prod.fst).filter (fun u =>
          (applyOps s ops).graph.hasEdge u p.1)).length = 0 := by
      omega
    rw [List.length_eq_zero] at hlen0
    rw [hlen0] at htmem
    simp at htmem

/-- A scheduler with tasks `t` and `dep`, where `dep` depends on `t`. -/
def blockedSetup : TaskScheduler :=
  ⟨⟨[("t", []), ("dep", ["t"])], [("t", ["dep"]), ("dep", [])],
    [("t", 0), ("dep", 1)]⟩, [], [],
   [("t", ⟨"t", [], TaskStatus.pending⟩),
    ("dep", ⟨"dep", ["t"], TaskStatus.pending⟩)]⟩

/-- C5 witness: after failing `t` (and further transitions that never
complete it), `dep` is not executable. -/
theorem failed_dependency_never_executable_witness :
    blockedSetup.graph.hasEdge "t" "dep" = true ∧
    ∀ tk ∈ (applyOps blockedSetup
        [SchedulerOp.markFailed "t", SchedulerOp.markRetrying "t",
         SchedulerOp.markExecuting "dep"]).getNextExecutableTasks,
      tk.id ≠ "dep" :=
  ⟨by decide, failed_dependency_never_executable blockedSetup "t" "dep"
    [SchedulerOp.markFailed "t", SchedulerOp.markRetrying "t",
     SchedulerOp.markExecuting "dep"]
    (by decide) (by decide) (by decide) (by decide)⟩

/-! ## Well-formedness is the reachable-state invariant

Every graph the class can build — starting empty, adding nodes and
edges, deriving edges from dependencies, and removing completed nodes —
is well-formed, so the `WF` hypotheses of the theorems above cover
exactly the graphs that occur at runtime. -/

theorem empty_WF : DAGraph.empty.WF := by decide

theorem mapGet_append {β : Type} (m n : List (String × β)) (k : String) :
    mapGet (m ++ n) k =
      match mapGet m k with
      | some v => some v
      | none => mapGet n k := by
  induction m with
  | nil => simp [mapGet]
  | cons p rest ih =>
      by_cases h : p.1 = k
      · obtain ⟨k₀, v₀⟩ := p
        simp only at h
        simp [mapGet, h]
      · obtain ⟨k₀, v₀⟩ := p
        simp only at h
        simp [mapGet, h, ih]

theorem not_mem_keys_of_not_hasKey {β : Type} {m : List (String × β)}
    {k : String} (h : ¬ hasKey m k = true) : k ∉ m.map Prod.fst := by
  intro hmem
  exact h (by simpa [hasKey] using mapGet_isSome_of_mem_keys hmem)

theorem addNode_WF {g : DAGraph} {id : String} {deps : List String}
    {g' : DAGraph} (hwf : g.WF) (h : g.addNode id deps = .ok g') :
    g'.WF := by
  obtain ⟨hnd, hadjk, hdegk, hadj, hdeg⟩ := hwf
  unfold DAGraph.addNode at h
  by_cases hk : hasKey g.nodes id
  · simp [hk] at h
  · rw [if_neg hk] at h
    have hid : id ∉ nodeIds g := not_mem_keys_of_not_hasKey hk
    have hg' : g' = DAGraph.mk (g.nodes ++ [(id, deps)])
        (g.adjacencyList ++ [(id, [])]) (g.inDegree ++ [(id, 0)]) :=
      Eq.symm (by simpa using h)
    subst hg'
    have hkeysN : nodeIds (DAGraph.mk (g.nodes ++ [(id, deps)])
        (g.adjacencyList ++ [(id, [])]) (g.inDegree ++ [(id, 0)])) =
        nodeIds g ++ [id] := by
      unfold nodeIds
      simp
    have hadjT : ∀ u, u ∈ nodeIds g →
        adjTargets (DAGraph.mk (g.nodes ++ [(id, deps)])
          (g.adjacencyList ++ [(id, [])]) (g.inDegree ++ [(id, 0)])) u =
        adjTargets g u := by
      intro u hu
      unfold adjTargets
      show (mapGet (g.adjacencyList ++ [(id, [])]) u).getD [] = _
      rw [mapGet_append]
      have hsome : (mapGet g.adjacencyList u).isSome = true :=
        mapGet_isSome_of_mem_keys (by rw [hadjk]; exact hu)
      cases hm : mapGet g.adjacencyList u with
      | none => rw [hm] at hsome; simp at hsome
      | some ts => simp
    have hadjTid : adjTargets (DAGraph.mk (g.nodes ++ [(id, deps)])
        (g.adjacencyList ++ [(id, [])]) (g.inDegree ++ [(id, 0)])) id
        = [] := by
      unfold adjTargets
      show (mapGet (g.adjacencyList ++ [(id, [])]) id).getD [] = _
      rw [mapGet_append]
      have hnone : mapGet g.adjacencyList id = none := by
        cases hm : mapGet g.adjacencyList id with
        | none => rfl
        | some ts =>
            refine absurd ?_ hid
            rw [← hadjk]
            exact mem_keys_of_mapGet_eq_some hm
      rw [hnone]
      simp [mapGet]
    have hEdge_same : ∀ u v, u ∈ nodeIds g →
        (DAGraph.mk (g.nodes ++ [(id, deps)])
          (g.adjacencyList ++ [(id, [])])
          (g.inDegree ++ [(id, 0)])).hasEdge u v = g.hasEdge u v := by
      intro u v hu
      unfold DAGraph.hasEdge
      rw [hadjT u hu]
    have hEdge_new : ∀ v, (DAGraph.mk (g.nodes ++ [(id, deps)])
        (g.adjacencyList ++ [(id, [])])
        (g.inDegree ++ [(id, 0)])).hasEdge id v = false := by
      intro v
      unfold DAGraph.hasEdge
      rw [hadjTid]
      simp
    have hcount : ∀ v, predCount (DAGraph.mk (g.nodes ++ [(id, deps)])
        (g.adjacencyList ++ [(id, [])]) (g.inDegree ++ [(id, 0)])) v =
        ((((nodeIds g).filter (fun u => g.hasEdge u v)).length : Int)) := by
      intro v
      unfold predCount predCountIn
      have hks : (DAGraph.mk (g.nodes ++ [(id, deps)])
          (g.adjacencyList ++ [(id, [])])
          (g.inDegree ++ [(id, 0)])).adjacencyList.map Prod.fst =
          nodeIds g ++ [id] := by
        show (g.adjacencyList ++ [(id, [])]).map Prod.fst = _
        rw [List.map_append, hadjk]
        rfl
      rw [hks, List.filter_append]
      have hcong : (nodeIds g).filter
          (fun u => (DAGraph.mk (g.nodes ++ [(id, deps)])
            (g.adjacencyList ++ [(id, [])])
            (g.inDegree ++ [(id, 0)])).hasEdge u v) =
          (nodeIds g).filter (fun u => g.hasEdge u v) :=
        List.filter_congr (fun u hu => hEdge_same u v hu)
      rw [hcong]
      rw [List.filter_cons_of_neg (by simp [hEdge_new v])]
      simp
    refine ⟨?_, ?_, ?_, ?_, ?_⟩
    · rw [hkeysN, List.nodup_append]
      refine ⟨hnd, by simp, ?_⟩
      intro a ha hb
      simp only [List.mem_singleton] at hb
      exact hid (hb ▸ ha)
    · rw [hkeysN]
      show (g.adjacencyList ++ [(id, [])]).map Prod.fst = _
      rw [List.map_append, hadjk]
      rfl
    · rw [hkeysN]
      show (g.inDegree ++ [(id, 0)]).map Prod.fst = _
      rw [List.map_append, hdegk]
      rfl
    · intro p hp
      rcases List.mem_append.mp hp with h | h
      · obtain ⟨h1, h2⟩ := hadj p h
        refine ⟨h1, ?_⟩
        intro t ht
        rw [hkeysN]
        exact List.mem_append_left _ (h2 t ht)
      · simp only [List.mem_singleton] at h
        rw [h]
        exact ⟨List.nodup_nil, by intro t ht; simp at ht⟩
    · intro p hp
      rcases List.mem_append.mp hp with h | h
      · rw [hcount p.1]
        have hold := hdeg p h
        unfold predCount predCountIn at hold
        rw [hadjk] at hold
        exact hold
      · simp only [List.mem_singleton] at h
        rw [h]
        show (0 : Int) = _
        rw [hcount id]
        have hfil : (nodeIds g).filter (fun u => g.hasEdge u id) = [] := by
          rw [List.filter_eq_nil_iff]
          intro u hu hedge
          have he : Edge g u id := edge_iff_hasEdge.mpr (by simpa using hedge)
          exact hid (edge_target_mem_nodes hadj he)
        rw [hfil]
        simp

theorem addEdge_WF {g : DAGraph} {src dst : String} {g' : DAGraph}
    (hwf : g.WF) (h : g.addEdge src dst = .ok g') : g'.WF := by
  obtain ⟨hnd, hadjk, hdegk, hadj, hdeg⟩ := hwf
  have hndA : (g.adjacencyList.map Prod.fst).Nodup := by
    rw [hadjk]; exact hnd
  have hndD : (g.inDegree.map Prod.fst).Nodup := by
    rw [hdegk]; exact hnd
  unfold DAGraph.addEdge at h
  by_cases h1 : hasKey g.nodes src
  · by_cases h2 : hasKey g.nodes dst
    · simp only [h1, h2, not_true, if_false, ite_false,
        Bool.not_eq_true] at h
      cases ha : mapGet g.adjacencyList src with
      | none =>
          rw [ha] at h
          have hg : g' = g := Eq.symm (by simpa using h)
          subst hg
          exact ⟨hnd, hadjk, hdegk, hadj, hdeg⟩
      | some ts =>
          rw [ha] at h
          by_cases hmem : dst ∈ ts
          · have hg : g' = g := Eq.symm (by simpa [hmem] using h)
            subst hg
            exact ⟨hnd, hadjk, hdegk, hadj, hdeg⟩
          · have hg : g' = DAGraph.mk g.nodes
                (mapSet g.adjacencyList src (ts ++ [dst]))
                (mapSet g.inDegree dst
                  ((mapGet g.inDegree dst).getD 0 + 1)) :=
              Eq.symm (by simpa [hmem] using h)
            subst hg
            have hsrcN : src ∈ nodeIds g := mem_nodeIds_of_hasKey h1
            have hdstN : dst ∈ nodeIds g := mem_nodeIds_of_hasKey h2
            have hsrcA : src ∈ g.adjacencyList.map Prod.fst := by
              rw [hadjk]; exact hsrcN
            have hdstD : dst ∈ g.inDegree.map Prod.fst := by
              rw [hdegk]; exact hdstN
            have hkeysA : (mapSet g.adjacencyList src
                (ts ++ [dst])).map Prod.fst = nodeIds g := by
              rw [keys_mapSet_of_hasKey _ _ _
                (by simpa [hasKey] using mapGet_isSome_of_mem_keys hsrcA)]
              exact hadjk
            have hkeysD : (mapSet g.inDegree dst
                ((mapGet g.inDegree dst).getD 0 + 1)).map Prod.fst =
                nodeIds g := by
              rw [keys_mapSet_of_hasKey _ _ _
                (by simpa [hasKey] using mapGet_isSome_of_mem_keys hdstD)]
              exact hdegk
            have hkeysA' : (DAGraph.mk g.nodes
                (mapSet g.adjacencyList src (ts ++ [dst]))
                (mapSet g.inDegree dst
                  ((mapGet g.inDegree dst).getD 0 + 1))).adjacencyList.map
                    Prod.fst = nodeIds g := hkeysA
            have hadjTs : adjTargets g src = ts := by
              unfold adjTargets
              rw [ha]
              rfl
            have hE : ∀ u v, (DAGraph.mk g.nodes
                (mapSet g.adjacencyList src (ts ++ [dst]))
                (mapSet g.inDegree dst
                  ((mapGet g.inDegree dst).getD 0 + 1))).hasEdge u v =
                if u = src then decide (v ∈ ts ++ [dst])
                else g.hasEdge u v := by
              intro u v
              unfold DAGraph.hasEdge adjTargets
              show decide (v ∈ (mapGet (mapSet g.adjacencyList src
                (ts ++ [dst])) u).getD []) = _
              by_cases hu : u = src
              · rw [hu, mapGet_mapSet_self, if_pos rfl]
                rfl
              · rw [mapGet_mapSet_ne _ _ _ _ hu, if_neg hu]
            refine ⟨hnd, hkeysA, hkeysD, ?_, ?_⟩
            · intro p hp
              rcases mem_mapSet hp with hcase | hcase
              · obtain ⟨hts_nd, hts_mem⟩ :=
                  hadj (src, ts) (mem_of_mapGet_eq_some ha)
                rw [hcase]
                constructor
                · rw [List.nodup_append]
                  refine ⟨hts_nd, by simp, ?_⟩
                  intro a hat hab
                  simp only [List.mem_singleton] at hab
                  exact hmem (hab ▸ hat)
                · intro t ht
                  rcases List.mem_append.mp ht with ht | ht
                  · exact hts_mem t ht
                  · simp only [List.mem_singleton] at ht
                    exact ht ▸ hdstN
              · exact hadj p hcase
            · intro p hp
              have holdsrc : g.hasEdge src dst = false := by
                unfold DAGraph.hasEdge
                rw [hadjTs]
                simpa using hmem
              rcases mem_mapSet hp with hcase | hcase
              · -- the updated target entry (dst): degree rises by one
                have hnewsrc : (DAGraph.mk g.nodes
                    (mapSet g.adjacencyList src (ts ++ [dst]))
                    (mapSet g.inDegree dst
                      ((mapGet g.inDegree dst).getD 0 + 1))).hasEdge src dst
                    = true := by
                  rw [hE]
                  simp
                have hpart_old := length_filter_partition (nodeIds g)
                  (fun u => g.hasEdge u dst) (fun u => u = src)
                have hpart_new := length_filter_partition (nodeIds g)
                  (fun u => (DAGraph.mk g.nodes
                    (mapSet g.adjacencyList src (ts ++ [dst]))
                    (mapSet g.inDegree dst
                      ((mapGet g.inDegree dst).getD 0 + 1))).hasEdge u dst)
                  (fun u => u = src)
                have hsing : (nodeIds g).filter (fun u => u = src) = [src] :=
                  filter_eq_singleton hnd hsrcN
                have hsame : ((nodeIds g).filter
                    (fun x => ! (x = src : Bool))).filter
                    (fun u => (DAGraph.mk g.nodes
                      (mapSet g.adjacencyList src (ts ++ [dst]))
                      (mapSet g.inDegree dst
                        ((mapGet g.inDegree dst).getD 0 + 1))).hasEdge
                          u dst) =
                    ((nodeIds g).filter
                      (fun x => ! (x = src : Bool))).filter
                    (fun u => g.hasEdge u dst) := by
                  refine List.filter_congr ?_
                  intro u hu
                  have hus : ¬ u = src := by
                    have := List.of_mem_filter hu
                    simpa using this
                  rw [hE, if_neg hus]
                rw [hsing, hsame] at hpart_new
                rw [hsing] at hpart_old
                have hone : ([src].filter (fun u => (DAGraph.mk g.nodes
                    (mapSet g.adjacencyList src (ts ++ [dst]))
                    (mapSet g.inDegree dst
                      ((mapGet g.inDegree dst).getD 0 + 1))).hasEdge
                        u dst)).length = 1 := by
                  simp [List.filter_cons, hnewsrc]
                have hzero : ([src].filter
                    (fun u => g.hasEdge u dst)).length = 0 := by
                  simp [List.filter_cons, holdsrc]
                rw [hone] at hpart_new
                rw [hzero] at hpart_old
                have hcnt : predCount (DAGraph.mk g.nodes
                    (mapSet g.adjacencyList src (ts ++ [dst]))
                    (mapSet g.inDegree dst
                      ((mapGet g.inDegree dst).getD 0 + 1))) dst =
                    (((nodeIds g).filter
                      (fun u => g.hasEdge u dst)).length : Int) + 1 := by
                  unfold predCount predCountIn
                  rw [hkeysA']
                  omega
                have hgetD : (mapGet g.inDegree dst).getD 0 =
                    (((nodeIds g).filter
                      (fun u => g.hasEdge u dst)).length : Int) := by
                  obtain ⟨d0, hd0⟩ := Option.isSome_iff_exists.mp
                    (mapGet_isSome_of_mem_keys hdstD)
                  have hd0c : d0 = predCount g dst :=
                    hdeg (dst, d0) (mem_of_mapGet_eq_some hd0)
                  rw [hd0]
                  show d0 = _
                  rw [hd0c]
                  unfold predCount predCountIn
                  rw [hadjk]
                rw [hcase]
                show (mapGet g.inDegree dst).getD 0 + 1 = _
                rw [hcnt, hgetD]
              · -- an untouched entry keeps its degree
                have hpv : ¬ p.1 = dst := by
                  intro hh
                  have hget := mapGet_eq_some_of_mem hndD hcase
                  rw [hh] at hget
                  have hget' := mapGet_eq_some_of_mem
                    (by rw [hkeysD]; exact hnd) hp
                  rw [hh, mapGet_mapSet_self] at hget'
                  injection hget' with hval
                  rw [hget] at hval
                  simp only [Option.getD_some] at hval
                  omega
                have hold := hdeg p hcase
                unfold predCount predCountIn at hold ⊢
                rw [hadjk] at hold
                rw [hkeysA', hold]
                congr 1
                refine congrArg List.length (List.filter_congr ?_)
                intro u hu
                by_cases hus : u = src
                · rw [hE, if_pos hus]
                  unfold DAGraph.hasEdge
                  rw [hus, hadjTs]
                  have hiff : (p.1 ∈ ts ++ [dst]) ↔ (p.1 ∈ ts) := by
                    rw [List.mem_append]
                    simp [hpv]
                  simp [hiff]
                · rw [hE, if_neg hus]
    · simp [h1, h2] at h
  · simp [h1] at h

theorem except_bind_ok {β γ : Type} {x : Except String β}
    {f : β → Except String γ} {b : γ} (h : x >>= f = .ok b) :
    ∃ a, x = .ok a ∧ f a = .ok b := by
  cases x with
  | error e =>
      exact absurd h (by
        show ¬ Except.bind (Except.error e) f = Except.ok b
        simp [Except.bind])
  | ok a =>
      refine ⟨a, rfl, ?_⟩
      have hb : Except.bind (Except.ok a) f = Except.ok b := h
      simpa [Except.bind] using hb

theorem foldlM_preserves {α β : Type} (P : β → Prop)
    (f : β → α → Except String β)
    (hf : ∀ g a g', P g → f g a = .ok g' → P g') :
    ∀ (l : List α) {g g' : β}, P g → l.foldlM f g = .ok g' → P g' := by
  intro l
  induction l with
  | nil =>
      intro g g' hw h
      have h' : Except.ok g = Except.ok g' := h
      rw [← Except.ok.inj h']
      exact hw
  | cons a l ih =>
      intro g g' hw h
      have h1 : f g a >>= (fun b2 => l.foldlM f b2) = .ok g' := h
      obtain ⟨g1, hfa, hrest⟩ := except_bind_ok h1
      exact ih (hf g a g1 hw hfa) hrest

theorem buildFromDependencies_WF {g g' : DAGraph} (hwf : g.WF)
    (h : g.buildFromDependencies = .ok g') : g'.WF := by
  unfold DAGraph.buildFromDependencies at h
  refine foldlM_preserves DAGraph.WF _ ?_ g.nodes hwf h
  intro g0 p g1 hw0 hstep
  refine foldlM_preserves DAGraph.WF _ ?_ p.2 hw0 hstep
  intro g2 depId g3 hw2 hstep2
  by_cases hk : hasKey g2.nodes depId
  · rw [if_pos hk] at hstep2
    exact addEdge_WF hw2 hstep2
  · rw [if_neg hk] at hstep2
    have hgg : Except.ok g2 = Except.ok g3 := hstep2
    rw [← Except.ok.inj hgg]
    exact hw2

theorem addTask_WF {s s' : TaskScheduler} {id : String}
    {deps : List String} {data : Task} (hwf : s.graph.WF)
    (h : s.addTask id deps data = .ok s') : s'.graph.WF := by
  unfold TaskScheduler.addTask at h
  obtain ⟨g1, hg1, hrest⟩ := except_bind_ok h
  have hok : Except.ok (TaskScheduler.mk g1 s.completedTasks s.failedTasks
    (mapSet s.taskMap id data)) = Except.ok s' := hrest
  rw [← Except.ok.inj hok]
  exact addNode_WF hwf hg1

theorem addTasksFromArray_WF {s s' : TaskScheduler} {tasks : List Task}
    (hwf : s.graph.WF) (h : s.addTasksFromArray tasks = .ok s') :
    s'.graph.WF := by
  unfold TaskScheduler.addTasksFromArray at h
  refine foldlM_preserves (fun t => t.graph.WF) _ ?_ tasks hwf h
  intro s0 t s1 hw0 hstep
  exact addTask_WF hw0 hstep

theorem buildGraph_WF {s s' : TaskScheduler} (hwf : s.graph.WF)
    (h : s.buildGraph = .ok s') : s'.graph.WF := by
  unfold TaskScheduler.buildGraph at h
  obtain ⟨g1, hg1, hrest⟩ := except_bind_ok h
  have hok : Except.ok { s with graph := g1 } = Except.ok s' := hrest
  rw [← Except.ok.inj hok]
  exact buildFromDependencies_WF hwf hg1

end PlanAgent
